import Mathlib

/-!
Shallow embedding of `src/workflows/workflow_engine.py`: a dependency-aware
task scheduler.  Python dynamic values are modelled by `PyVal`, dictionaries by
association lists (insertion order preserved, keys unique), the `while` loop of
`execute_workflow` by a fuel-indexed recursion (`execLoop`); the fuel
`|tasks| + 1` is an upper bound on the number of iterations the Python loop can
perform (proved below), so the `outOfFuel` marker is unreachable for any
dict-backed (duplicate-free) task table, and the embedding is exact.
The `logger.info("Executing task: ...")` call emitted just before each action
invocation is modelled by a ghost `TraceEvent` recording the task's name, its
dependency list and a snapshot of `executed_tasks` at that moment.
-/

namespace WorkflowSpec

/-- Python dynamic values (`Any`): `None`, booleans, integers, strings and
string-keyed dictionaries, which is all the repository's actions produce. -/
inductive PyVal where
  | none
  | bool (b : Bool)
  | int (n : Int)
  | str (s : String)
  | dict (entries : List (String × PyVal))
deriving Repr

/-- Python `class TaskStatus(Enum)` from workflow_engine.py. -/
inductive TaskStatus where
  | pending
  | running
  | completed
  | failed
  | skipped
deriving DecidableEq, Repr

/-- The `.value` string of each enum member. -/
def TaskStatus.value : TaskStatus → String
  | .pending => "pending"
  | .running => "running"
  | .completed => "completed"
  | .failed => "failed"
  | .skipped => "skipped"

/-- The membership test `task.status in [TaskStatus.COMPLETED, TaskStatus.FAILED,
TaskStatus.SKIPPED]` used by the scheduling loop to skip resolved tasks. -/
def TaskStatus.isTerminal : TaskStatus → Bool
  | .completed => true
  | .failed => true
  | .skipped => true
  | _ => false

/-- A shared execution context: Python `Dict[str, Any]`. -/
abbrev Ctx := List (String × PyVal)

/-- A task action: a callable receiving the shared context and either returning
a value or raising an exception whose `str` is the given message; it may also
mutate the context, so it returns the updated context as well. -/
abbrev TaskAction := Ctx → Except String PyVal × Ctx

/-- The Python dataclass `Task` from workflow_engine.py, field for field
(`result: Any = None` becomes `result : PyVal := .none`). -/
structure Task where
  name : String
  action : TaskAction
  dependencies : List String
  status : TaskStatus := .pending
  result : PyVal := .none
  error : Option String := Option.none

/-- Python dict insertion `m[k] = v`: replace in place when the key exists
(keeping its position), append otherwise. -/
def dictInsert (m : List (String × α)) (k : String) (v : α) : List (String × α) :=
  if m.any (fun p => p.1 = k) then
    m.map (fun p => if p.1 = k then (k, v) else p)
  else
    m ++ [(k, v)]

/-- Python dict lookup `m.get(k)` / `m[k]` guarded by `k in m`. -/
def dictGet (m : List (String × α)) (k : String) : Option α :=
  (m.find? (fun p => p.1 = k)).map Prod.snd

/-- Python `class Workflow` from workflow_engine.py: name, description and the
insertion-ordered task dictionary. -/
structure Workflow where
  name : String
  description : String := ""
  tasks : List (String × Task) := []

/-- Embeds `Workflow.add_task(name, action, dependencies=None)`: inserts
`Task(name=name, action=action, dependencies=dependencies or [])`. -/
def Workflow.addTask (w : Workflow) (taskName : String) (action : TaskAction)
    (dependencies : Option (List String)) : Workflow :=
  { w with
    tasks := dictInsert w.tasks taskName
      { name := taskName, action := action, dependencies := dependencies.getD [] } }

/-- Embeds `Workflow.get_task(name)`, i.e. `self.tasks.get(name)`. -/
def Workflow.getTask (w : Workflow) (taskName : String) : Option Task :=
  dictGet w.tasks taskName

/-- Python `class WorkflowEngine`: the registry of workflows. -/
structure WorkflowEngine where
  workflows : List (String × Workflow) := []

/-- Embeds `WorkflowEngine.register_workflow(workflow)`:
`self.workflows[workflow.name] = workflow`. -/
def WorkflowEngine.registerWorkflow (e : WorkflowEngine) (w : Workflow) : WorkflowEngine :=
  { workflows := dictInsert e.workflows w.name w }

/-- One entry of the result mapping built at the end of `execute_workflow`:
`{"status": task.status.value, "result": task.result, "error": task.error}`. -/
structure TaskRecord where
  status : String
  result : PyVal
  error : Option String
deriving Repr

/-- Ghost record of one `task.action(context)` invocation (the
`logger.info(f"Executing task: {task_name}")` event), with the task's
dependency list and the `executed_tasks` set as of that moment. -/
structure TraceEvent where
  taskName : String
  dependencies : List String
  executed : List String
deriving DecidableEq, Repr

/-- Embeds `executed_tasks.add(task_name)` on the duplicate-free list modelling the
Python set. -/
def setAdd (s : List String) (x : String) : List String :=
  if s.contains x then s else s ++ [x]

/-- State produced by one full `for task_name, task in workflow.tasks.items()`
scan: the (possibly mutated) tasks, context, `executed_tasks`, the
`progress_made` flag, and the invocation events of this scan. -/
structure ScanResult where
  tasks : List (String × Task)
  ctx : Ctx
  executed : List String
  progress : Bool
  trace : List TraceEvent

/-- The body of the `while` loop of `execute_workflow`: one in-order scan over
the task table.  Terminal tasks are skipped; a task whose dependencies are all
in `executed` runs: on success it becomes `COMPLETED` with the returned value
stored in `result`, on an exception it becomes `FAILED` with the message stored
in `error`; either way its name joins `executed` and `progress_made` is set. -/
def scanTasks : List (String × Task) → Ctx → List String → ScanResult
  | [], ctx, executed => ⟨[], ctx, executed, false, []⟩
  | (taskName, task) :: rest, ctx, executed =>
    if task.status.isTerminal then
      let r := scanTasks rest ctx executed
      ⟨(taskName, task) :: r.tasks, r.ctx, r.executed, r.progress, r.trace⟩
    else if task.dependencies.all (fun dep => executed.contains dep) then
      match task.action ctx with
      | (Except.ok v, ctx1) =>
        let r := scanTasks rest ctx1 (setAdd executed taskName)
        ⟨(taskName, { task with status := TaskStatus.completed, result := v }) :: r.tasks,
          r.ctx, r.executed, true, ⟨taskName, task.dependencies, executed⟩ :: r.trace⟩
      | (Except.error msg, ctx1) =>
        let r := scanTasks rest ctx1 (setAdd executed taskName)
        ⟨(taskName, { task with status := TaskStatus.failed, error := Option.some msg }) :: r.tasks,
          r.ctx, r.executed, true, ⟨taskName, task.dependencies, executed⟩ :: r.trace⟩
    else
      let r := scanTasks rest ctx executed
      ⟨(taskName, task) :: r.tasks, r.ctx, r.executed, r.progress, r.trace⟩

/-- The result-collection dict comprehension at the end of `execute_workflow`. -/
def collectResults (tasks : List (String × Task)) : List (String × TaskRecord) :=
  tasks.map (fun p => (p.1, ⟨p.2.status.value, p.2.result, p.2.error⟩))

/-- The comprehension `[name for name in workflow.tasks.keys() if name not in executed_tasks]`. -/
def remainingTasks (tasks : List (String × Task)) (executed : List String) : List String :=
  (tasks.map Prod.fst).filter (fun n => !(executed.contains n))

/-- Outcome of `execute_workflow`: normal return with the report, the
`RuntimeError` deadlock raise with the remaining task names, or the
`ValueError` raise for an unknown workflow name.  Each executing outcome also
carries the final (mutated) task table, the final context and the invocation
trace; `outOfFuel` is the unreachable fuel-exhaustion marker. -/
inductive ExecResult where
  | ok (report : List (String × TaskRecord)) (tasks : List (String × Task))
      (ctx : Ctx) (trace : List TraceEvent)
  | deadlock (remaining : List String) (tasks : List (String × Task))
      (ctx : Ctx) (trace : List TraceEvent)
  | notFound (workflowName : String)
  | outOfFuel (tasks : List (String × Task)) (ctx : Ctx) (trace : List TraceEvent)

/-- The `while len(executed_tasks) < len(workflow.tasks)` loop, fuel-indexed. -/
def execLoop : Nat → List (String × Task) → Ctx → List String → List TraceEvent → ExecResult
  | 0, tasks, ctx, _, trace => ExecResult.outOfFuel tasks ctx trace
  | fuel + 1, tasks, ctx, executed, trace =>
    if executed.length < tasks.length then
      let r := scanTasks tasks ctx executed
      if r.progress then
        execLoop fuel r.tasks r.ctx r.executed (trace ++ r.trace)
      else
        ExecResult.deadlock (remainingTasks r.tasks r.executed) r.tasks r.ctx (trace ++ r.trace)
    else
      ExecResult.ok (collectResults tasks) tasks ctx trace

/-- Embeds `context = context or ...` (an absent or empty context becomes the empty dict). -/
def contextOrEmpty (context : Option Ctx) : Ctx :=
  context.getD []

/-- Embeds `WorkflowEngine.execute_workflow(workflow_name, context)`. -/
def WorkflowEngine.executeWorkflow (e : WorkflowEngine) (workflowName : String)
    (context : Option Ctx) : ExecResult :=
  match dictGet e.workflows workflowName with
  | Option.none => ExecResult.notFound workflowName
  | Option.some w =>
    execLoop (w.tasks.length + 1) w.tasks (contextOrEmpty context) [] []

/-- The report of a normal return, if any. -/
def ExecResult.reportOf : ExecResult → Option (List (String × TaskRecord))
  | .ok report _ _ _ => Option.some report
  | _ => Option.none

/-- The remaining-task list of a deadlock raise, if any. -/
def ExecResult.remainingOf : ExecResult → Option (List String)
  | .deadlock remaining _ _ _ => Option.some remaining
  | _ => Option.none

/-- The invocation trace of an outcome (none happen on a name-lookup failure). -/
def ExecResult.traceOf : ExecResult → List TraceEvent
  | .ok _ _ _ trace => trace
  | .deadlock _ _ _ trace => trace
  | .notFound _ => []
  | .outOfFuel _ _ trace => trace

/-- The final task table of an outcome, if execution started. -/
def ExecResult.finalTasks : ExecResult → Option (List (String × Task))
  | .ok _ tasks _ _ => Option.some tasks
  | .deadlock _ tasks _ _ => Option.some tasks
  | .notFound _ => Option.none
  | .outOfFuel tasks _ _ => Option.some tasks

/-! ### Basic helper lemmas -/

theorem contains_mem {s : List String} {x : String} : s.contains x = true ↔ x ∈ s := by
  simp

theorem setAdd_sublist (s : List String) (x : String) : s.Sublist (setAdd s x) := by
  unfold setAdd
  split
  · exact List.Sublist.refl s
  · exact List.sublist_append_left s [x]

theorem mem_setAdd {s : List String} {x y : String} :
    y ∈ setAdd s x ↔ y ∈ s ∨ y = x := by
  unfold setAdd
  split
  · rename_i h
    rw [contains_mem] at h
    constructor
    · exact fun hy => Or.inl hy
    · rintro (hy | rfl)
      · exact hy
      · exact h
  · simp

theorem setAdd_nodup {s : List String} {x : String} (h : s.Nodup) : (setAdd s x).Nodup := by
  unfold setAdd
  split
  · exact h
  · rename_i hc
    rw [contains_mem] at hc
    simp [List.nodup_append, h, hc]

theorem setAdd_length_lt {s : List String} {x : String} (h : x ∉ s) :
    s.length < (setAdd s x).length := by
  unfold setAdd
  rw [if_neg (by simpa using h)]
  simp

/-- In a table with duplicate-free keys, a key determines its entry. -/
theorem keyUnique {α : Type _} {l : List (String × α)} (h : (l.map Prod.fst).Nodup)
    {k : String} {a b : α} (ha : (k, a) ∈ l) (hb : (k, b) ∈ l) : a = b := by
  induction l with
  | nil => cases ha
  | cons hd tl ih =>
    rw [List.map_cons, List.nodup_cons] at h
    rcases List.mem_cons.mp ha with rfl | ha1
    · rcases List.mem_cons.mp hb with hb1 | hb1
      · exact (congrArg Prod.snd hb1).symm
      · exact absurd (List.mem_map.mpr ⟨(k, b), hb1, rfl⟩) h.1
    · rcases List.mem_cons.mp hb with rfl | hb1
      · exact absurd (List.mem_map.mpr ⟨(k, a), ha1, rfl⟩) h.1
      · exact ih h.2 ha1 hb1

theorem forall2_mem_right {α β : Type _} {R : α → β → Prop} {l₁ : List α} {l₂ : List β}
    (h : List.Forall₂ R l₁ l₂) : ∀ b ∈ l₂, ∃ a ∈ l₁, R a b := by
  induction h with
  | nil => intro b hb; cases hb
  | cons hR _ ih =>
    intro b hb
    rcases List.mem_cons.mp hb with rfl | hb
    · exact ⟨_, List.mem_cons_self _ _, hR⟩
    · obtain ⟨a, ha, hab⟩ := ih b hb
      exact ⟨a, List.mem_cons_of_mem _ ha, hab⟩

theorem forall2_mem_left {α β : Type _} {R : α → β → Prop} {l₁ : List α} {l₂ : List β}
    (h : List.Forall₂ R l₁ l₂) : ∀ a ∈ l₁, ∃ b ∈ l₂, R a b := by
  induction h with
  | nil => intro a ha; cases ha
  | cons hR _ ih =>
    intro a ha
    rcases List.mem_cons.mp ha with rfl | ha
    · exact ⟨_, List.mem_cons_self _ _, hR⟩
    · obtain ⟨b, hb, hab⟩ := ih a ha
      exact ⟨b, List.mem_cons_of_mem _ hb, hab⟩

theorem forall2_trans {α : Type _} {R : α → α → Prop}
    (hR : ∀ a b c, R a b → R b c → R a c) :
    ∀ {l₁ l₂ l₃ : List α}, List.Forall₂ R l₁ l₂ → List.Forall₂ R l₂ l₃ →
      List.Forall₂ R l₁ l₃ := by
  intro l₁ l₂ l₃ h12
  induction h12 generalizing l₃ with
  | nil =>
    intro h23
    cases h23
    exact List.Forall₂.nil
  | cons hab h ih =>
    intro h23
    cases h23 with
    | cons hbc h' => exact List.Forall₂.cons (hR _ _ _ hab hbc) (ih h')

/-! ### How one scan transforms a single task

`TaskEvolves q p` relates a task-table entry before some amount of execution
(`q`) to the same entry after it (`p`): the key, dependency list and action
never change, and the entry either is untouched or was run exactly once,
moving a non-terminal task to `COMPLETED` (storing the action's return value)
or to `FAILED` (storing the raised message). -/

def TaskEvolves (q p : String × Task) : Prop :=
  p.1 = q.1 ∧ p.2.dependencies = q.2.dependencies ∧ p.2.action = q.2.action ∧
  (p = q ∨
    (q.2.status.isTerminal = false ∧
      ((∃ c v c1, q.2.action c = (Except.ok v, c1) ∧
          p.2 = { q.2 with status := TaskStatus.completed, result := v }) ∨
       (∃ c m c1, q.2.action c = (Except.error m, c1) ∧
          p.2 = { q.2 with status := TaskStatus.failed, error := Option.some m }))))

theorem taskEvolves_refl (q : String × Task) : TaskEvolves q q :=
  ⟨rfl, rfl, rfl, Or.inl rfl⟩

theorem taskEvolves_terminal_of_ne {q p : String × Task} (h : TaskEvolves q p)
    (hne : p ≠ q) : p.2.status.isTerminal = true := by
  rcases h.2.2.2 with rfl | ⟨_, hrun | hrun⟩
  · exact absurd rfl hne
  · obtain ⟨c, v, c1, _, hp⟩ := hrun
    rw [hp]
    rfl
  · obtain ⟨c, m, c1, _, hp⟩ := hrun
    rw [hp]
    rfl

theorem taskEvolves_trans {q p r : String × Task} (h1 : TaskEvolves q p)
    (h2 : TaskEvolves p r) : TaskEvolves q r := by
  obtain ⟨hk1, hd1, ha1, hc1⟩ := h1
  obtain ⟨hk2, hd2, ha2, hc2⟩ := h2
  refine ⟨hk2.trans hk1, hd2.trans hd1, ha2.trans ha1, ?_⟩
  rcases hc2 with rfl | ⟨hpt, hrun⟩
  · exact hc1
  · by_cases hpq : p = q
    · subst hpq
      exact Or.inr ⟨hpt, hrun⟩
    · exfalso
      rw [taskEvolves_terminal_of_ne ⟨hk1, hd1, ha1, hc1⟩ hpq] at hpt
      cases hpt

/-! ### Unfolding one step of the scan -/

theorem scan_cons_term {n : String} {t : Task} {tl : List (String × Task)} {c : Ctx}
    {ex : List String} (h : t.status.isTerminal = true) :
    scanTasks ((n, t) :: tl) c ex =
      ⟨(n, t) :: (scanTasks tl c ex).tasks, (scanTasks tl c ex).ctx,
        (scanTasks tl c ex).executed, (scanTasks tl c ex).progress,
        (scanTasks tl c ex).trace⟩ := by
  simp only [scanTasks]
  rw [if_pos h]

theorem scan_cons_wait {n : String} {t : Task} {tl : List (String × Task)} {c : Ctx}
    {ex : List String} (h : t.status.isTerminal = false)
    (h2 : t.dependencies.all (fun dep => ex.contains dep) = false) :
    scanTasks ((n, t) :: tl) c ex =
      ⟨(n, t) :: (scanTasks tl c ex).tasks, (scanTasks tl c ex).ctx,
        (scanTasks tl c ex).executed, (scanTasks tl c ex).progress,
        (scanTasks tl c ex).trace⟩ := by
  simp only [scanTasks]
  rw [if_neg (by rw [h]; exact Bool.false_ne_true),
    if_neg (by rw [h2]; exact Bool.false_ne_true)]

theorem scan_cons_ok {n : String} {t : Task} {tl : List (String × Task)} {c : Ctx}
    {ex : List String} {v : PyVal} {c1 : Ctx} (h : t.status.isTerminal = false)
    (h2 : t.dependencies.all (fun dep => ex.contains dep) = true)
    (hact : t.action c = (Except.ok v, c1)) :
    scanTasks ((n, t) :: tl) c ex =
      ⟨(n, { t with status := TaskStatus.completed, result := v }) ::
          (scanTasks tl c1 (setAdd ex n)).tasks,
        (scanTasks tl c1 (setAdd ex n)).ctx, (scanTasks tl c1 (setAdd ex n)).executed,
        true, ⟨n, t.dependencies, ex⟩ :: (scanTasks tl c1 (setAdd ex n)).trace⟩ := by
  simp only [scanTasks]
  rw [if_neg (by rw [h]; exact Bool.false_ne_true), if_pos h2, hact]

theorem scan_cons_err {n : String} {t : Task} {tl : List (String × Task)} {c : Ctx}
    {ex : List String} {m : String} {c1 : Ctx} (h : t.status.isTerminal = false)
    (h2 : t.dependencies.all (fun dep => ex.contains dep) = true)
    (hact : t.action c = (Except.error m, c1)) :
    scanTasks ((n, t) :: tl) c ex =
      ⟨(n, { t with status := TaskStatus.failed, error := Option.some m }) ::
          (scanTasks tl c1 (setAdd ex n)).tasks,
        (scanTasks tl c1 (setAdd ex n)).ctx, (scanTasks tl c1 (setAdd ex n)).executed,
        true, ⟨n, t.dependencies, ex⟩ :: (scanTasks tl c1 (setAdd ex n)).trace⟩ := by
  simp only [scanTasks]
  rw [if_neg (by rw [h]; exact Bool.false_ne_true), if_pos h2, hact]

/-! ### Structural properties of one scan -/

theorem scan_keys (ts : List (String × Task)) (c : Ctx) (ex : List String) :
    (scanTasks ts c ex).tasks.map Prod.fst = ts.map Prod.fst := by
  induction ts generalizing c ex with
  | nil => rfl
  | cons hd tl ih =>
    obtain ⟨n, t⟩ := hd
    by_cases hterm : t.status.isTerminal = true
    · rw [scan_cons_term hterm]
      simpa using ih c ex
    · rw [Bool.not_eq_true] at hterm
      by_cases hready : (t.dependencies.all fun dep => ex.contains dep) = true
      · rcases hact : t.action c with ⟨m | v, c1⟩
        · rw [scan_cons_err hterm hready hact]
          simpa using ih c1 (setAdd ex n)
        · rw [scan_cons_ok hterm hready hact]
          simpa using ih c1 (setAdd ex n)
      · rw [Bool.not_eq_true] at hready
        rw [scan_cons_wait hterm hready]
        simpa using ih c ex

theorem scan_executed_sublist (ts : List (String × Task)) (c : Ctx) (ex : List String) :
    ex.Sublist (scanTasks ts c ex).executed := by
  induction ts generalizing c ex with
  | nil => exact List.Sublist.refl ex
  | cons hd tl ih =>
    obtain ⟨n, t⟩ := hd
    by_cases hterm : t.status.isTerminal = true
    · rw [scan_cons_term hterm]
      exact ih c ex
    · rw [Bool.not_eq_true] at hterm
      by_cases hready : (t.dependencies.all fun dep => ex.contains dep) = true
      · rcases hact : t.action c with ⟨m | v, c1⟩
        · rw [scan_cons_err hterm hready hact]
          exact (setAdd_sublist ex n).trans (ih c1 (setAdd ex n))
        · rw [scan_cons_ok hterm hready hact]
          exact (setAdd_sublist ex n).trans (ih c1 (setAdd ex n))
      · rw [Bool.not_eq_true] at hready
        rw [scan_cons_wait hterm hready]
        exact ih c ex

theorem scan_executed_nodup (ts : List (String × Task)) (c : Ctx) {ex : List String}
    (h : ex.Nodup) : (scanTasks ts c ex).executed.Nodup := by
  induction ts generalizing c ex with
  | nil => exact h
  | cons hd tl ih =>
    obtain ⟨n, t⟩ := hd
    by_cases hterm : t.status.isTerminal = true
    · rw [scan_cons_term hterm]
      exact ih c h
    · rw [Bool.not_eq_true] at hterm
      by_cases hready : (t.dependencies.all fun dep => ex.contains dep) = true
      · rcases hact : t.action c with ⟨m | v, c1⟩
        · rw [scan_cons_err hterm hready hact]
          exact ih c1 (setAdd_nodup h)
        · rw [scan_cons_ok hterm hready hact]
          exact ih c1 (setAdd_nodup h)
      · rw [Bool.not_eq_true] at hready
        rw [scan_cons_wait hterm hready]
        exact ih c h

/-- Names present in `executed` after a scan either were there before, or are
the key of a task that was non-terminal before the scan (hence ran during it)
and is terminal, at the same key, after it. -/
theorem scan_executed_mem (ts : List (String × Task)) (c : Ctx) (ex : List String) :
    ∀ x ∈ (scanTasks ts c ex).executed, x ∈ ex ∨
      ((∃ t, (x, t) ∈ ts ∧ t.status.isTerminal = false) ∧
        (∃ t', (x, t') ∈ (scanTasks ts c ex).tasks ∧ t'.status.isTerminal = true)) := by
  induction ts generalizing c ex with
  | nil => exact fun x hx => Or.inl hx
  | cons hd tl ih =>
    obtain ⟨n, t⟩ := hd
    intro x hx
    by_cases hterm : t.status.isTerminal = true
    · rw [scan_cons_term hterm] at hx ⊢
      rcases ih c ex x hx with hx1 | ⟨⟨u, hu, hu2⟩, ⟨u', hu', hu'2⟩⟩
      · exact Or.inl hx1
      · exact Or.inr ⟨⟨u, List.mem_cons_of_mem _ hu, hu2⟩,
          ⟨u', List.mem_cons_of_mem _ hu', hu'2⟩⟩
    · rw [Bool.not_eq_true] at hterm
      by_cases hready : (t.dependencies.all fun dep => ex.contains dep) = true
      · rcases hact : t.action c with ⟨m | v, c1⟩
        · rw [scan_cons_err hterm hready hact] at hx ⊢
          rcases ih c1 (setAdd ex n) x hx with hx1 | ⟨⟨u, hu, hu2⟩, ⟨u', hu', hu'2⟩⟩
          · rcases mem_setAdd.mp hx1 with hx2 | rfl
            · exact Or.inl hx2
            · exact Or.inr ⟨⟨t, List.mem_cons_self _ _, hterm⟩,
                ⟨{ t with status := TaskStatus.failed, error := Option.some m },
                  List.mem_cons_self _ _, rfl⟩⟩
          · exact Or.inr ⟨⟨u, List.mem_cons_of_mem _ hu, hu2⟩,
              ⟨u', List.mem_cons_of_mem _ hu', hu'2⟩⟩
        · rw [scan_cons_ok hterm hready hact] at hx ⊢
          rcases ih c1 (setAdd ex n) x hx with hx1 | ⟨⟨u, hu, hu2⟩, ⟨u', hu', hu'2⟩⟩
          · rcases mem_setAdd.mp hx1 with hx2 | rfl
            · exact Or.inl hx2
            · exact Or.inr ⟨⟨t, List.mem_cons_self _ _, hterm⟩,
                ⟨{ t with status := TaskStatus.completed, result := v },
                  List.mem_cons_self _ _, rfl⟩⟩
          · exact Or.inr ⟨⟨u, List.mem_cons_of_mem _ hu, hu2⟩,
              ⟨u', List.mem_cons_of_mem _ hu', hu'2⟩⟩
      · rw [Bool.not_eq_true] at hready
        rw [scan_cons_wait hterm hready] at hx ⊢
        rcases ih c ex x hx with hx1 | ⟨⟨u, hu, hu2⟩, ⟨u', hu', hu'2⟩⟩
        · exact Or.inl hx1
        · exact Or.inr ⟨⟨u, List.mem_cons_of_mem _ hu, hu2⟩,
            ⟨u', List.mem_cons_of_mem _ hu', hu'2⟩⟩

theorem scan_evolves (ts : List (String × Task)) (c : Ctx) (ex : List String) :
    List.Forall₂ TaskEvolves ts (scanTasks ts c ex).tasks := by
  induction ts generalizing c ex with
  | nil => exact List.Forall₂.nil
  | cons hd tl ih =>
    obtain ⟨n, t⟩ := hd
    by_cases hterm : t.status.isTerminal = true
    · rw [scan_cons_term hterm]
      exact List.Forall₂.cons (taskEvolves_refl _) (ih c ex)
    · rw [Bool.not_eq_true] at hterm
      by_cases hready : (t.dependencies.all fun dep => ex.contains dep) = true
      · rcases hact : t.action c with ⟨m | v, c1⟩
        · rw [scan_cons_err hterm hready hact]
          exact List.Forall₂.cons
            ⟨rfl, rfl, rfl, Or.inr ⟨hterm, Or.inr ⟨c, m, c1, hact, rfl⟩⟩⟩
            (ih c1 (setAdd ex n))
        · rw [scan_cons_ok hterm hready hact]
          exact List.Forall₂.cons
            ⟨rfl, rfl, rfl, Or.inr ⟨hterm, Or.inl ⟨c, v, c1, hact, rfl⟩⟩⟩
            (ih c1 (setAdd ex n))
      · rw [Bool.not_eq_true] at hready
        rw [scan_cons_wait hterm hready]
        exact List.Forall₂.cons (taskEvolves_refl _) (ih c ex)

/-- If some task is non-terminal and has all its dependencies in `executed`,
the scan reaches it, runs it, and sets `progress_made`. -/
theorem scan_progress_of_ready {ts : List (String × Task)} {c : Ctx} {ex : List String}
    (h : ∃ p ∈ ts, p.2.status.isTerminal = false ∧ ∀ d ∈ p.2.dependencies, d ∈ ex) :
    (scanTasks ts c ex).progress = true := by
  induction ts generalizing c ex with
  | nil =>
    obtain ⟨p, hp, _⟩ := h
    cases hp
  | cons hd tl ih =>
    obtain ⟨n, t⟩ := hd
    obtain ⟨p, hp, hnt, hdeps⟩ := h
    by_cases hterm : t.status.isTerminal = true
    · rw [scan_cons_term hterm]
      show (scanTasks tl c ex).progress = true
      apply ih
      rcases List.mem_cons.mp hp with rfl | hptl
      · rw [hterm] at hnt
        cases hnt
      · exact ⟨p, hptl, hnt, hdeps⟩
    · rw [Bool.not_eq_true] at hterm
      by_cases hready : (t.dependencies.all fun dep => ex.contains dep) = true
      · rcases hact : t.action c with ⟨m | v, c1⟩
        · rw [scan_cons_err hterm hready hact]
        · rw [scan_cons_ok hterm hready hact]
      · rw [Bool.not_eq_true] at hready
        rw [scan_cons_wait hterm hready]
        show (scanTasks tl c ex).progress = true
        apply ih
        rcases List.mem_cons.mp hp with rfl | hptl
        · exfalso
          have hall : (t.dependencies.all fun dep => ex.contains dep) = true := by
            rw [List.all_eq_true]
            intro d hd
            exact contains_mem.mpr (hdeps d hd)
          rw [hall] at hready
          cases hready
        · exact ⟨p, hptl, hnt, hdeps⟩

/-- A scan that sets `progress_made` strictly enlarges the executed set,
provided keys are duplicate-free and no non-terminal task is already marked
executed. -/
theorem scan_progress_growth {ts : List (String × Task)} {c : Ctx} {ex : List String}
    (hnodup : (ts.map Prod.fst).Nodup)
    (hne : ∀ p ∈ ts, p.2.status.isTerminal = false → p.1 ∉ ex)
    (hprog : (scanTasks ts c ex).progress = true) :
    ex.length < (scanTasks ts c ex).executed.length := by
  induction ts generalizing c ex with
  | nil => cases hprog
  | cons hd tl ih =>
    obtain ⟨n, t⟩ := hd
    rw [List.map_cons, List.nodup_cons] at hnodup
    by_cases hterm : t.status.isTerminal = true
    · rw [scan_cons_term hterm] at hprog ⊢
      exact ih hnodup.2 (fun p hp => hne p (List.mem_cons_of_mem _ hp)) hprog
    · rw [Bool.not_eq_true] at hterm
      by_cases hready : (t.dependencies.all fun dep => ex.contains dep) = true
      · rcases hact : t.action c with ⟨m | v, c1⟩
        · rw [scan_cons_err hterm hready hact]
          calc ex.length < (setAdd ex n).length :=
                setAdd_length_lt (hne (n, t) (List.mem_cons_self _ _) hterm)
            _ ≤ (scanTasks tl c1 (setAdd ex n)).executed.length :=
                (scan_executed_sublist tl c1 (setAdd ex n)).length_le
        · rw [scan_cons_ok hterm hready hact]
          calc ex.length < (setAdd ex n).length :=
                setAdd_length_lt (hne (n, t) (List.mem_cons_self _ _) hterm)
            _ ≤ (scanTasks tl c1 (setAdd ex n)).executed.length :=
                (scan_executed_sublist tl c1 (setAdd ex n)).length_le
      · rw [Bool.not_eq_true] at hready
        rw [scan_cons_wait hterm hready] at hprog ⊢
        exact ih hnodup.2 (fun p hp => hne p (List.mem_cons_of_mem _ hp)) hprog

/-- Every action invocation of a scan happens with all the task's dependencies
already members of the `executed` snapshot taken at invocation time. -/
theorem scan_trace_deps (ts : List (String × Task)) (c : Ctx) (ex : List String) :
    ∀ ev ∈ (scanTasks ts c ex).trace, ∀ d ∈ ev.dependencies, d ∈ ev.executed := by
  induction ts generalizing c ex with
  | nil => intro ev hev; cases hev
  | cons hd tl ih =>
    obtain ⟨n, t⟩ := hd
    intro ev hev
    by_cases hterm : t.status.isTerminal = true
    · rw [scan_cons_term hterm] at hev
      exact ih c ex ev hev
    · rw [Bool.not_eq_true] at hterm
      by_cases hready : (t.dependencies.all fun dep => ex.contains dep) = true
      · rcases hact : t.action c with ⟨m | v, c1⟩
        · rw [scan_cons_err hterm hready hact] at hev
          rcases List.mem_cons.mp hev with rfl | hev1
          · intro d hd
            exact contains_mem.mp (List.all_eq_true.mp hready d hd)
          · exact ih c1 (setAdd ex n) ev hev1
        · rw [scan_cons_ok hterm hready hact] at hev
          rcases List.mem_cons.mp hev with rfl | hev1
          · intro d hd
            exact contains_mem.mp (List.all_eq_true.mp hready d hd)
          · exact ih c1 (setAdd ex n) ev hev1
      · rw [Bool.not_eq_true] at hready
        rw [scan_cons_wait hterm hready] at hev
        exact ih c ex ev hev

/-- Every invocation event of a scan names a task that was non-terminal
(hence not skipped) when the scan started. -/
theorem scan_trace_source (ts : List (String × Task)) (c : Ctx) (ex : List String) :
    ∀ ev ∈ (scanTasks ts c ex).trace,
      ∃ t, (ev.taskName, t) ∈ ts ∧ t.status.isTerminal = false := by
  induction ts generalizing c ex with
  | nil => intro ev hev; cases hev
  | cons hd tl ih =>
    obtain ⟨n, t⟩ := hd
    intro ev hev
    by_cases hterm : t.status.isTerminal = true
    · rw [scan_cons_term hterm] at hev
      obtain ⟨u, hu, hu2⟩ := ih c ex ev hev
      exact ⟨u, List.mem_cons_of_mem _ hu, hu2⟩
    · rw [Bool.not_eq_true] at hterm
      by_cases hready : (t.dependencies.all fun dep => ex.contains dep) = true
      · rcases hact : t.action c with ⟨m | v, c1⟩
        · rw [scan_cons_err hterm hready hact] at hev
          rcases List.mem_cons.mp hev with rfl | hev1
          · exact ⟨t, List.mem_cons_self _ _, hterm⟩
          · obtain ⟨u, hu, hu2⟩ := ih c1 (setAdd ex n) ev hev1
            exact ⟨u, List.mem_cons_of_mem _ hu, hu2⟩
        · rw [scan_cons_ok hterm hready hact] at hev
          rcases List.mem_cons.mp hev with rfl | hev1
          · exact ⟨t, List.mem_cons_self _ _, hterm⟩
          · obtain ⟨u, hu, hu2⟩ := ih c1 (setAdd ex n) ev hev1
            exact ⟨u, List.mem_cons_of_mem _ hu, hu2⟩
      · rw [Bool.not_eq_true] at hready
        rw [scan_cons_wait hterm hready] at hev
        obtain ⟨u, hu, hu2⟩ := ih c ex ev hev
        exact ⟨u, List.mem_cons_of_mem _ hu, hu2⟩

/-! ### Workflow-level predicates and the loop invariant -/

/-- Every task still has its initial `PENDING` status. -/
abbrev AllPending (tasks : List (String × Task)) : Prop :=
  ∀ p ∈ tasks, p.2.status = TaskStatus.pending

/-- Every task is exactly as `add_task` created it: `PENDING`, no result, no
error. -/
abbrev AllFresh (tasks : List (String × Task)) : Prop :=
  ∀ p ∈ tasks, p.2.status = TaskStatus.pending ∧ p.2.result = PyVal.none ∧
    p.2.error = Option.none

/-- Every dependency name refers to a task of the same workflow. -/
abbrev FullyDefined (tasks : List (String × Task)) : Prop :=
  ∀ p ∈ tasks, ∀ d ∈ p.2.dependencies, d ∈ tasks.map Prod.fst

/-- The statement that `rank` is a topological numbering: each task's dependencies rank strictly
below it.  A finite dependency graph admits such a numbering exactly when it
is acyclic, so this is our rendering of "the dependency graph is acyclic". -/
abbrev RankOrder (tasks : List (String × Task)) (rank : String → Nat) : Prop :=
  ∀ p ∈ tasks, ∀ d ∈ p.2.dependencies, rank d < rank p.1

/-- A task is terminal exactly when its key is in the executed set (holds
throughout a run that starts with all tasks `PENDING`). -/
def TermIffExec (tasks : List (String × Task)) (executed : List String) : Prop :=
  ∀ p ∈ tasks, (p.2.status.isTerminal = true ↔ p.1 ∈ executed)

/-- Invariant of the scheduling loop relating the task table and
`executed_tasks`. -/
structure LoopInv (tasks : List (String × Task)) (executed : List String) : Prop where
  nodupKeys : (tasks.map Prod.fst).Nodup
  nodupExec : executed.Nodup
  execKeys : ∀ x ∈ executed, x ∈ tasks.map Prod.fst
  execTerminal : ∀ x ∈ executed, ∃ t, (x, t) ∈ tasks ∧ t.status.isTerminal = true

theorem loopInv_init {tasks : List (String × Task)}
    (h : (tasks.map Prod.fst).Nodup) : LoopInv tasks [] :=
  ⟨h, List.nodup_nil, fun x hx => absurd hx (List.not_mem_nil x),
    fun x hx => absurd hx (List.not_mem_nil x)⟩

theorem nodup_subset_length {l K : List String} (h : l.Nodup) (hs : ∀ x ∈ l, x ∈ K) :
    l.length ≤ K.length :=
  (List.subperm_of_subset h hs).length_le

theorem nodup_subset_exclude_length {l K : List String} {x : String} (h : l.Nodup)
    (hs : ∀ y ∈ l, y ∈ K) (hx : x ∈ K) (hxl : x ∉ l) : l.length < K.length := by
  have hsub : ∀ y ∈ l, y ∈ K.erase x := fun y hy =>
    (List.mem_erase_of_ne fun hyx => hxl (by rw [← hyx]; exact hy)).mpr (hs y hy)
  have h2 := nodup_subset_length h hsub
  have h3 := List.length_erase_add_one hx
  omega

theorem all_keys_mem {ex K : List String} (h : ex.Nodup) (hs : ∀ x ∈ ex, x ∈ K)
    (hlen : K.length ≤ ex.length) : ∀ k ∈ K, k ∈ ex := by
  intro k hk
  by_contra hkx
  have := nodup_subset_exclude_length h hs hk hkx
  omega

theorem inv_exec_le {tasks : List (String × Task)} {executed : List String}
    (inv : LoopInv tasks executed) : executed.length ≤ tasks.length := by
  have := nodup_subset_length inv.nodupExec inv.execKeys
  simpa using this

theorem inv_nonterm_not_exec {tasks : List (String × Task)} {executed : List String}
    (inv : LoopInv tasks executed) :
    ∀ p ∈ tasks, p.2.status.isTerminal = false → p.1 ∉ executed := by
  rintro ⟨n, t⟩ hp hnt hmem
  obtain ⟨t', ht', hterm⟩ := inv.execTerminal n hmem
  rw [keyUnique inv.nodupKeys ht' hp] at hterm
  rw [hterm] at hnt
  cases hnt

/-- Once the executed set covers the whole (duplicate-free) table, every task
is terminal. -/
theorem inv_all_terminal {tasks : List (String × Task)} {executed : List String}
    (inv : LoopInv tasks executed) (hlen : tasks.length ≤ executed.length) :
    ∀ p ∈ tasks, p.2.status.isTerminal = true := by
  rintro ⟨n, t⟩ hp
  by_contra hnt
  rw [Bool.not_eq_true] at hnt
  have hkey : n ∈ tasks.map Prod.fst := List.mem_map.mpr ⟨(n, t), hp, rfl⟩
  have hmem : n ∈ executed :=
    all_keys_mem inv.nodupExec inv.execKeys (by simpa using hlen) n hkey
  exact inv_nonterm_not_exec inv (n, t) hp hnt hmem

theorem taskEvolves_of_terminal {q p : String × Task} (h : TaskEvolves q p)
    (hq : q.2.status.isTerminal = true) : p = q := by
  rcases h.2.2.2 with rfl | ⟨hnt, _⟩
  · rfl
  · rw [hq] at hnt
    cases hnt

theorem scan_preserves_inv {ts : List (String × Task)} {c : Ctx} {ex : List String}
    (inv : LoopInv ts ex) :
    LoopInv (scanTasks ts c ex).tasks (scanTasks ts c ex).executed := by
  refine ⟨?_, scan_executed_nodup ts c inv.nodupExec, ?_, ?_⟩
  · rw [scan_keys]
    exact inv.nodupKeys
  · intro x hx
    rcases scan_executed_mem ts c ex x hx with hx1 | ⟨_, ⟨t', ht', _⟩⟩
    · rw [scan_keys]
      exact inv.execKeys x hx1
    · exact List.mem_map.mpr ⟨(x, t'), ht', rfl⟩
  · intro x hx
    rcases scan_executed_mem ts c ex x hx with hx1 | ⟨_, hres⟩
    · obtain ⟨t, ht, hterm⟩ := inv.execTerminal x hx1
      obtain ⟨p, hp, hev⟩ := forall2_mem_left (scan_evolves ts c ex) (x, t) ht
      rw [taskEvolves_of_terminal hev hterm] at hp
      exact ⟨t, hp, hterm⟩
    · exact hres

theorem scan_preserves_iff {ts : List (String × Task)} {c : Ctx} {ex : List String}
    (hnodup : (ts.map Prod.fst).Nodup) (hiff : TermIffExec ts ex) :
    TermIffExec (scanTasks ts c ex).tasks (scanTasks ts c ex).executed := by
  induction ts generalizing c ex with
  | nil => intro p hp; cases hp
  | cons hd tl ih =>
    obtain ⟨n, t⟩ := hd
    rw [List.map_cons, List.nodup_cons] at hnodup
    have hiff_tl : TermIffExec tl ex := fun p hp => hiff p (List.mem_cons_of_mem _ hp)
    by_cases hterm : t.status.isTerminal = true
    · rw [scan_cons_term hterm]
      intro p hp
      rcases List.mem_cons.mp hp with rfl | hp1
      · refine iff_of_true hterm ?_
        exact (scan_executed_sublist tl c ex).subset
          ((hiff (n, t) (List.mem_cons_self _ _)).mp hterm)
      · exact ih hnodup.2 hiff_tl p hp1
    · rw [Bool.not_eq_true] at hterm
      have hnotex : n ∉ ex := by
        intro hmem
        have := (hiff (n, t) (List.mem_cons_self _ _)).mpr hmem
        rw [hterm] at this
        cases this
      by_cases hready : (t.dependencies.all fun dep => ex.contains dep) = true
      · rcases hact : t.action c with ⟨m | v, c1⟩
        · rw [scan_cons_err hterm hready hact]
          intro p hp
          have hiff' : TermIffExec tl (setAdd ex n) := by
            intro q hq
            rw [hiff_tl q hq, mem_setAdd]
            have : q.1 ≠ n := by
              intro hqn
              exact hnodup.1 (hqn ▸ List.mem_map.mpr ⟨q, hq, rfl⟩)
            simp [this]
          rcases List.mem_cons.mp hp with rfl | hp1
          · refine iff_of_true rfl ?_
            exact (scan_executed_sublist tl c1 (setAdd ex n)).subset
              (mem_setAdd.mpr (Or.inr rfl))
          · exact ih hnodup.2 hiff' p hp1
        · rw [scan_cons_ok hterm hready hact]
          intro p hp
          have hiff' : TermIffExec tl (setAdd ex n) := by
            intro q hq
            rw [hiff_tl q hq, mem_setAdd]
            have : q.1 ≠ n := by
              intro hqn
              exact hnodup.1 (hqn ▸ List.mem_map.mpr ⟨q, hq, rfl⟩)
            simp [this]
          rcases List.mem_cons.mp hp with rfl | hp1
          · refine iff_of_true rfl ?_
            exact (scan_executed_sublist tl c1 (setAdd ex n)).subset
              (mem_setAdd.mpr (Or.inr rfl))
          · exact ih hnodup.2 hiff' p hp1
      · rw [Bool.not_eq_true] at hready
        rw [scan_cons_wait hterm hready]
        intro p hp
        rcases List.mem_cons.mp hp with rfl | hp1
        · refine iff_of_false (by rw [hterm]; exact Bool.false_ne_true) ?_
          intro hmem
          rcases scan_executed_mem tl c ex n hmem with hx1 | ⟨⟨u, hu, _⟩, _⟩
          · exact hnotex hx1
          · exact hnodup.1 (List.mem_map.mpr ⟨(n, u), hu, rfl⟩)
        · exact ih hnodup.2 hiff_tl p hp1

/-- A scan that makes no progress changes nothing. -/
theorem scan_noprogress_id {ts : List (String × Task)} {c : Ctx} {ex : List String}
    (h : (scanTasks ts c ex).progress = false) :
    scanTasks ts c ex = ⟨ts, c, ex, false, []⟩ := by
  induction ts generalizing c ex with
  | nil => rfl
  | cons hd tl ih =>
    obtain ⟨n, t⟩ := hd
    by_cases hterm : t.status.isTerminal = true
    · rw [scan_cons_term hterm] at h ⊢
      rw [ih h]
    · rw [Bool.not_eq_true] at hterm
      by_cases hready : (t.dependencies.all fun dep => ex.contains dep) = true
      · rcases hact : t.action c with ⟨m | v, c1⟩
        · rw [scan_cons_err hterm hready hact] at h
          cases h
        · rw [scan_cons_ok hterm hready hact] at h
          cases h
      · rw [Bool.not_eq_true] at hready
        rw [scan_cons_wait hterm hready] at h ⊢
        rw [ih h]

/-! ### The scheduling loop -/

theorem execLoop_exit {fuel : Nat} {ts : List (String × Task)} {c : Ctx}
    {ex : List String} {tr : List TraceEvent} (h : ¬ ex.length < ts.length) :
    execLoop (fuel + 1) ts c ex tr = ExecResult.ok (collectResults ts) ts c tr := by
  simp only [execLoop]
  rw [if_neg h]

theorem execLoop_step {fuel : Nat} {ts : List (String × Task)} {c : Ctx}
    {ex : List String} {tr : List TraceEvent} (h : ex.length < ts.length)
    (hp : (scanTasks ts c ex).progress = true) :
    execLoop (fuel + 1) ts c ex tr =
      execLoop fuel (scanTasks ts c ex).tasks (scanTasks ts c ex).ctx
        (scanTasks ts c ex).executed (tr ++ (scanTasks ts c ex).trace) := by
  simp only [execLoop]
  rw [if_pos h, if_pos hp]

theorem execLoop_dead {fuel : Nat} {ts : List (String × Task)} {c : Ctx}
    {ex : List String} {tr : List TraceEvent} (h : ex.length < ts.length)
    (hp : (scanTasks ts c ex).progress = false) :
    execLoop (fuel + 1) ts c ex tr =
      ExecResult.deadlock
        (remainingTasks (scanTasks ts c ex).tasks (scanTasks ts c ex).executed)
        (scanTasks ts c ex).tasks (scanTasks ts c ex).ctx
        (tr ++ (scanTasks ts c ex).trace) := by
  simp only [execLoop]
  rw [if_pos h, if_neg (by rw [hp]; exact Bool.false_ne_true)]

theorem exists_min_by {α : Type _} (f : α → Nat) {l : List α} (h : l ≠ []) :
    ∃ a ∈ l, ∀ b ∈ l, f a ≤ f b := by
  induction l with
  | nil => cases h rfl
  | cons hd tl ih =>
    rcases eq_or_ne tl [] with rfl | hne
    · refine ⟨hd, List.mem_cons_self _ _, ?_⟩
      intro b hb
      rcases List.mem_cons.mp hb with rfl | hb1
      · exact le_refl _
      · cases hb1
    · obtain ⟨p, hp, hmin⟩ := ih hne
      by_cases hcmp : f hd ≤ f p
      · refine ⟨hd, List.mem_cons_self _ _, ?_⟩
        intro b hb
        rcases List.mem_cons.mp hb with rfl | hb1
        · exact le_refl _
        · exact hcmp.trans (hmin b hb1)
      · refine ⟨p, List.mem_cons_of_mem _ hp, ?_⟩
        intro b hb
        rcases List.mem_cons.mp hb with rfl | hb1
        · omega
        · exact hmin b hb1

/-- Master behaviour of the `while` loop under the invariant: given fuel
exceeding the number of unresolved tasks, the loop ends either in a normal
return — with all final tasks terminal and the report collected from them — or
in the deadlock raise, whose final state satisfies the invariant, where some
task stayed unresolved and every still non-terminal task has an unmet
dependency.  (In particular the loop never exhausts the `|tasks| + 1` fuel
used by `executeWorkflow`, i.e. the Python loop always terminates.) -/
theorem execLoop_spec : ∀ (fuel : Nat) (ts : List (String × Task)) (c : Ctx)
    (ex : List String) (tr : List TraceEvent), LoopInv ts ex →
    ts.length < fuel + ex.length →
    (∃ ts' c' tr', execLoop fuel ts c ex tr = ExecResult.ok (collectResults ts') ts' c' tr' ∧
      List.Forall₂ TaskEvolves ts ts' ∧ ts'.map Prod.fst = ts.map Prod.fst ∧
      ∀ p ∈ ts', p.2.status.isTerminal = true) ∨
    (∃ ts' c' tr' exF, execLoop fuel ts c ex tr =
        ExecResult.deadlock (remainingTasks ts' exF) ts' c' tr' ∧
      List.Forall₂ TaskEvolves ts ts' ∧ ts'.map Prod.fst = ts.map Prod.fst ∧
      LoopInv ts' exF ∧ ex.Sublist exF ∧ exF.length < ts'.length ∧
      ∀ p ∈ ts', p.2.status.isTerminal = false → ∃ d ∈ p.2.dependencies, d ∉ exF) := by
  intro fuel
  induction fuel with
  | zero =>
    intro ts c ex tr inv hbound
    have := inv_exec_le inv
    omega
  | succ fuel ih =>
    intro ts c ex tr inv hbound
    by_cases hlt : ex.length < ts.length
    · by_cases hprog : (scanTasks ts c ex).progress = true
      · rw [execLoop_step hlt hprog]
        have inv' := scan_preserves_inv (c := c) inv
        have hgrow := scan_progress_growth inv.nodupKeys (inv_nonterm_not_exec inv) hprog
        have hkeys := scan_keys ts c ex
        have hlen : (scanTasks ts c ex).tasks.length = ts.length := by
          simpa using congrArg List.length hkeys
        rcases ih _ _ _ (tr ++ (scanTasks ts c ex).trace) inv' (by omega) with
          ⟨ts', c', tr', heq, hev, hk, hterm⟩ |
          ⟨ts', c', tr', exF, heq, hev, hk, invF, hsub, hlt2, hstuck⟩
        · exact Or.inl ⟨ts', c', tr', heq,
            forall2_trans (fun a b cc (h1 : TaskEvolves a b) (h2 : TaskEvolves b cc) => taskEvolves_trans h1 h2) (scan_evolves ts c ex) hev,
            hk.trans hkeys, hterm⟩
        · exact Or.inr ⟨ts', c', tr', exF, heq,
            forall2_trans (fun a b cc (h1 : TaskEvolves a b) (h2 : TaskEvolves b cc) => taskEvolves_trans h1 h2) (scan_evolves ts c ex) hev,
            hk.trans hkeys, invF, (scan_executed_sublist ts c ex).trans hsub, hlt2, hstuck⟩
      · rw [Bool.not_eq_true] at hprog
        have hid := scan_noprogress_id hprog
        rw [execLoop_dead hlt hprog, hid]
        refine Or.inr ⟨ts, c, tr ++ [], ex, rfl,
          List.forall₂_same.mpr (fun p _ => taskEvolves_refl p), rfl, inv,
          List.Sublist.refl ex, hlt, ?_⟩
        intro p hp hnt
        by_contra hall
        push_neg at hall
        have : (scanTasks ts c ex).progress = true :=
          scan_progress_of_ready ⟨p, hp, hnt, hall⟩
        rw [hprog] at this
        cases this
    · rw [execLoop_exit hlt]
      exact Or.inl ⟨ts, c, tr, rfl,
        List.forall₂_same.mpr (fun p _ => taskEvolves_refl p), rfl,
        inv_all_terminal inv (by omega)⟩

/-- With an acyclic, fully-defined dependency graph (witnessed by a topological
numbering) and the terminal-iff-executed invariant, the loop always ends in a
normal return with every task terminal. -/
theorem execLoop_rank_ok : ∀ (fuel : Nat) (ts : List (String × Task)) (c : Ctx)
    (ex : List String) (tr : List TraceEvent) (rank : String → Nat), LoopInv ts ex →
    TermIffExec ts ex → FullyDefined ts → RankOrder ts rank →
    ts.length < fuel + ex.length →
    ∃ ts' c' tr', execLoop fuel ts c ex tr = ExecResult.ok (collectResults ts') ts' c' tr' ∧
      List.Forall₂ TaskEvolves ts ts' ∧ ts'.map Prod.fst = ts.map Prod.fst ∧
      ∀ p ∈ ts', p.2.status.isTerminal = true := by
  intro fuel
  induction fuel with
  | zero =>
    intro ts c ex tr rank inv _ _ _ hbound
    have := inv_exec_le inv
    omega
  | succ fuel ih =>
    intro ts c ex tr rank inv hiff hfd hro hbound
    by_cases hlt : ex.length < ts.length
    · have hprog : (scanTasks ts c ex).progress = true := by
        have hnt_ex : ∃ p ∈ ts, p.2.status.isTerminal = false := by
          by_contra hall
          push_neg at hall
          have hkeys_ex : ∀ k ∈ ts.map Prod.fst, k ∈ ex := by
            intro k hk
            obtain ⟨p, hp, rfl⟩ := List.mem_map.mp hk
            refine (hiff p hp).mp ?_
            cases h2 : p.2.status.isTerminal
            · exact absurd h2 (hall p hp)
            · rfl
          have := nodup_subset_length inv.nodupKeys hkeys_ex
          simp only [List.length_map] at this
          omega
        have hne : ts.filter (fun p => !p.2.status.isTerminal) ≠ [] := by
          obtain ⟨p, hp, hnt⟩ := hnt_ex
          intro h0
          have hmem : p ∈ ts.filter (fun p => !p.2.status.isTerminal) :=
            List.mem_filter.mpr ⟨hp, by rw [hnt]; rfl⟩
          rw [h0] at hmem
          cases hmem
        obtain ⟨p, hpnt, hmin⟩ := exists_min_by (fun p => rank p.1) hne
        have hpmem : p ∈ ts := (List.mem_filter.mp hpnt).1
        have hpnonterm : p.2.status.isTerminal = false := by
          have := (List.mem_filter.mp hpnt).2
          simpa using this
        apply scan_progress_of_ready
        refine ⟨p, hpmem, hpnonterm, ?_⟩
        intro d hd
        obtain ⟨q, hq, hqd⟩ := List.mem_map.mp (hfd p hpmem d hd)
        cases hqt : q.2.status.isTerminal
        · exfalso
          have hqnt : q ∈ ts.filter (fun p => !p.2.status.isTerminal) :=
            List.mem_filter.mpr ⟨hq, by rw [hqt]; rfl⟩
          have h1 := hmin q hqnt
          have h2 := hro p hpmem d hd
          rw [hqd] at h1
          omega
        · rw [← hqd]
          exact (hiff q hq).mp hqt
      rw [execLoop_step hlt hprog]
      have inv' := scan_preserves_inv (c := c) inv
      have hiff' := scan_preserves_iff (c := c) inv.nodupKeys hiff
      have hkeys := scan_keys ts c ex
      have hfd' : FullyDefined (scanTasks ts c ex).tasks := by
        intro p hp d hd
        obtain ⟨q, hq, hev⟩ := forall2_mem_right (scan_evolves ts c ex) p hp
        rw [hkeys]
        exact hfd q hq d (hev.2.1 ▸ hd)
      have hro' : RankOrder (scanTasks ts c ex).tasks rank := by
        intro p hp d hd
        obtain ⟨q, hq, hev⟩ := forall2_mem_right (scan_evolves ts c ex) p hp
        rw [hev.1]
        exact hro q hq d (hev.2.1 ▸ hd)
      have hgrow := scan_progress_growth inv.nodupKeys (inv_nonterm_not_exec inv) hprog
      have hlen : (scanTasks ts c ex).tasks.length = ts.length := by
        simpa using congrArg List.length hkeys
      obtain ⟨ts', c', tr', heq, hev, hk, hterm⟩ :=
        ih _ _ _ (tr ++ (scanTasks ts c ex).trace) rank inv' hiff' hfd' hro' (by omega)
      exact ⟨ts', c', tr', heq, forall2_trans (fun a b cc (h1 : TaskEvolves a b) (h2 : TaskEvolves b cc) => taskEvolves_trans h1 h2) (scan_evolves ts c ex) hev,
        hk.trans hkeys, hterm⟩
    · rw [execLoop_exit hlt]
      exact ⟨ts, c, tr, rfl, List.forall₂_same.mpr (fun p _ => taskEvolves_refl p), rfl,
        inv_all_terminal inv (by omega)⟩

theorem collectResults_keys (tasks : List (String × Task)) :
    (collectResults tasks).map Prod.fst = tasks.map Prod.fst := by
  simp [collectResults]

theorem value_terminal {s : TaskStatus} (h : s.isTerminal = true) :
    s.value = "completed" ∨ s.value = "failed" ∨ s.value = "skipped" := by
  cases s <;> simp_all [TaskStatus.isTerminal, TaskStatus.value]

theorem executeWorkflow_eq {e : WorkflowEngine} {workflowName : String} {w : Workflow}
    {context : Option Ctx} (h : dictGet e.workflows workflowName = Option.some w) :
    e.executeWorkflow workflowName context =
      execLoop (w.tasks.length + 1) w.tasks (contextOrEmpty context) [] [] := by
  simp only [WorkflowEngine.executeWorkflow, h]

theorem executeWorkflow_eq_none {e : WorkflowEngine} {workflowName : String}
    {context : Option Ctx} (h : dictGet e.workflows workflowName = Option.none) :
    e.executeWorkflow workflowName context = ExecResult.notFound workflowName := by
  simp only [WorkflowEngine.executeWorkflow, h]

theorem execLoop_no_notFound : ∀ (fuel : Nat) (ts : List (String × Task)) (c : Ctx)
    (ex : List String) (tr : List TraceEvent) (nm : String),
    execLoop fuel ts c ex tr ≠ ExecResult.notFound nm := by
  intro fuel
  induction fuel with
  | zero => intro ts c ex tr nm h; cases h
  | succ fuel ih =>
    intro ts c ex tr nm h
    by_cases hlt : ex.length < ts.length
    · by_cases hp : (scanTasks ts c ex).progress = true
      · rw [execLoop_step hlt hp] at h
        exact ih _ _ _ _ _ h
      · rw [Bool.not_eq_true] at hp
        rw [execLoop_dead hlt hp] at h
        cases h
    · rw [execLoop_exit hlt] at h
      cases h

/-- Every invocation event in a run's trace has its dependencies inside the
`executed` snapshot taken at invocation time. -/
theorem execLoop_trace : ∀ (fuel : Nat) (ts : List (String × Task)) (c : Ctx)
    (ex : List String) (tr : List TraceEvent),
    (∀ ev ∈ tr, ∀ d ∈ ev.dependencies, d ∈ ev.executed) →
    ∀ ev ∈ (execLoop fuel ts c ex tr).traceOf, ∀ d ∈ ev.dependencies, d ∈ ev.executed := by
  intro fuel
  induction fuel with
  | zero => intro ts c ex tr htr ev hev; exact htr ev hev
  | succ fuel ih =>
    intro ts c ex tr htr ev hev
    by_cases hlt : ex.length < ts.length
    · by_cases hp : (scanTasks ts c ex).progress = true
      · rw [execLoop_step hlt hp] at hev
        refine ih _ _ _ _ ?_ ev hev
        intro ev1 hev1
        rcases List.mem_append.mp hev1 with h1 | h1
        · exact htr ev1 h1
        · exact scan_trace_deps ts c ex ev1 h1
      · rw [Bool.not_eq_true] at hp
        rw [execLoop_dead hlt hp] at hev
        rcases List.mem_append.mp hev with h1 | h1
        · exact htr ev h1
        · exact scan_trace_deps ts c ex ev h1
    · rw [execLoop_exit hlt] at hev
      exact htr ev hev

/-- A set `C` of task names in which every member has a dependency that is
itself in `C` or is not a task name at all (a cycle, or the transitive
upstream of a missing dependency) can never enter the executed set during a
scan. -/
theorem scan_blocked {ts : List (String × Task)} {c : Ctx} {ex : List String}
    (K C : List String)
    (hK : ∀ p ∈ ts, p.1 ∈ K)
    (hexK : ∀ n ∈ ex, n ∈ K)
    (hCex : ∀ n ∈ C, n ∉ ex)
    (hCdep : ∀ n ∈ C, ∀ t, (n, t) ∈ ts → ∃ d ∈ t.dependencies, d ∈ C ∨ ¬ d ∈ K) :
    ∀ n ∈ C, n ∉ (scanTasks ts c ex).executed := by
  induction ts generalizing c ex with
  | nil => exact hCex
  | cons hd tl ih =>
    obtain ⟨hn, ht⟩ := hd
    have hK_tl : ∀ p ∈ tl, p.1 ∈ K := fun p hp => hK p (List.mem_cons_of_mem _ hp)
    have hCdep_tl : ∀ n ∈ C, ∀ t, (n, t) ∈ tl → ∃ d ∈ t.dependencies, d ∈ C ∨ ¬ d ∈ K :=
      fun n hnC t htl => hCdep n hnC t (List.mem_cons_of_mem _ htl)
    by_cases hterm : ht.status.isTerminal = true
    · rw [scan_cons_term hterm]
      exact ih hK_tl hexK hCex hCdep_tl
    · rw [Bool.not_eq_true] at hterm
      by_cases hready : (ht.dependencies.all fun dep => ex.contains dep) = true
      · have hnC : hn ∉ C := by
          intro hmem
          obtain ⟨d, hd, hor⟩ := hCdep hn hmem ht (List.mem_cons_self _ _)
          have hdex : d ∈ ex := contains_mem.mp (List.all_eq_true.mp hready d hd)
          rcases hor with h1 | h1
          · exact hCex d h1 hdex
          · exact h1 (hexK d hdex)
        have hexK' : ∀ n ∈ setAdd ex hn, n ∈ K := by
          intro n hn1
          rcases mem_setAdd.mp hn1 with h1 | rfl
          · exact hexK n h1
          · exact hK (n, ht) (List.mem_cons_self _ _)
        have hCex' : ∀ n ∈ C, n ∉ setAdd ex hn := by
          intro n hn1 hmem
          rcases mem_setAdd.mp hmem with h1 | rfl
          · exact hCex n hn1 h1
          · exact hnC hn1
        rcases hact : ht.action c with ⟨m | v, c1⟩
        · rw [scan_cons_err hterm hready hact]
          exact ih hK_tl hexK' hCex' hCdep_tl
        · rw [scan_cons_ok hterm hready hact]
          exact ih hK_tl hexK' hCex' hCdep_tl
      · rw [Bool.not_eq_true] at hready
        rw [scan_cons_wait hterm hready]
        exact ih hK_tl hexK hCex hCdep_tl

/-- The loop, started with a nonempty blocked set `C` of task names, always
ends in the deadlock raise, with no member of `C` ever executed. -/
theorem execLoop_blocked : ∀ (fuel : Nat) (ts : List (String × Task)) (c : Ctx)
    (ex : List String) (tr : List TraceEvent) (C : List String) (c₀ : String),
    LoopInv ts ex → c₀ ∈ C → (∀ n ∈ C, n ∈ ts.map Prod.fst) → (∀ n ∈ C, n ∉ ex) →
    (∀ n ∈ C, ∀ t, (n, t) ∈ ts → ∃ d ∈ t.dependencies, d ∈ C ∨ ¬ d ∈ ts.map Prod.fst) →
    ts.length < fuel + ex.length →
    ∃ ts' c' tr' exF, execLoop fuel ts c ex tr =
        ExecResult.deadlock (remainingTasks ts' exF) ts' c' tr' ∧
      List.Forall₂ TaskEvolves ts ts' ∧ ts'.map Prod.fst = ts.map Prod.fst ∧
      (∀ n ∈ C, n ∉ exF) := by
  intro fuel
  induction fuel with
  | zero =>
    intro ts c ex tr C c₀ inv hc₀ hCk hCex _ hbound
    have h1 : ex.length < ts.length := by
      have := nodup_subset_exclude_length inv.nodupExec inv.execKeys (hCk c₀ hc₀) (hCex c₀ hc₀)
      simpa using this
    omega
  | succ fuel ih =>
    intro ts c ex tr C c₀ inv hc₀ hCk hCex hCdep hbound
    have hlt : ex.length < ts.length := by
      have := nodup_subset_exclude_length inv.nodupExec inv.execKeys (hCk c₀ hc₀) (hCex c₀ hc₀)
      simpa using this
    have hK : ∀ p ∈ ts, p.1 ∈ ts.map Prod.fst := fun p hp => List.mem_map.mpr ⟨p, hp, rfl⟩
    have hCex' : ∀ n ∈ C, n ∉ (scanTasks ts c ex).executed :=
      scan_blocked (ts.map Prod.fst) C hK inv.execKeys hCex hCdep
    by_cases hprog : (scanTasks ts c ex).progress = true
    · rw [execLoop_step hlt hprog]
      have inv' := scan_preserves_inv (c := c) inv
      have hkeys := scan_keys ts c ex
      have hgrow := scan_progress_growth inv.nodupKeys (inv_nonterm_not_exec inv) hprog
      have hlen : (scanTasks ts c ex).tasks.length = ts.length := by
        simpa using congrArg List.length hkeys
      have hCk' : ∀ n ∈ C, n ∈ (scanTasks ts c ex).tasks.map Prod.fst := by
        intro n hn
        rw [hkeys]
        exact hCk n hn
      have hCdep' : ∀ n ∈ C, ∀ t, (n, t) ∈ (scanTasks ts c ex).tasks →
          ∃ d ∈ t.dependencies, d ∈ C ∨ ¬ d ∈ (scanTasks ts c ex).tasks.map Prod.fst := by
        intro n hn t hmem
        obtain ⟨q, hq, hev⟩ := forall2_mem_right (scan_evolves ts c ex) (n, t) hmem
        have hq1 : q.1 = n := hev.1.symm
        obtain ⟨d, hd, hor⟩ := hCdep n hn q.2 (by
          have : q = (n, q.2) := by
            rw [← hq1]
          rw [← this]
          exact hq)
        refine ⟨d, hev.2.1 ▸ hd, ?_⟩
        rw [hkeys]
        exact hor
      obtain ⟨ts', c', tr', exF, heq, hev, hk, hCexF⟩ :=
        ih _ _ _ (tr ++ (scanTasks ts c ex).trace) C c₀ inv' hc₀ hCk' hCex' hCdep' (by omega)
      exact ⟨ts', c', tr', exF, heq,
        forall2_trans (fun a b cc (h1 : TaskEvolves a b) (h2 : TaskEvolves b cc) =>
          taskEvolves_trans h1 h2) (scan_evolves ts c ex) hev,
        hk.trans hkeys, hCexF⟩
    · rw [Bool.not_eq_true] at hprog
      rw [execLoop_dead hlt hprog]
      exact ⟨(scanTasks ts c ex).tasks, (scanTasks ts c ex).ctx,
        tr ++ (scanTasks ts c ex).trace, (scanTasks ts c ex).executed, rfl,
        scan_evolves ts c ex, scan_keys ts c ex, hCex'⟩

/-- The loop, started with a pre-seeded terminal task whose key is not yet
executed, always ends in the deadlock raise; the pre-seeded task is never
invoked, never executed, and survives unchanged. -/
theorem execLoop_preseed : ∀ (fuel : Nat) (ts : List (String × Task)) (c : Ctx)
    (ex : List String) (tr : List TraceEvent) (n₀ : String) (t₀ : Task),
    LoopInv ts ex → (n₀, t₀) ∈ ts → t₀.status.isTerminal = true → n₀ ∉ ex →
    ts.length < fuel + ex.length →
    ∃ ts' c' tr' exF, execLoop fuel ts c ex tr =
        ExecResult.deadlock (remainingTasks ts' exF) ts' c' tr' ∧
      (n₀, t₀) ∈ ts' ∧ n₀ ∉ exF ∧ ts'.map Prod.fst = ts.map Prod.fst ∧
      (∀ ev ∈ tr', ev ∈ tr ∨ ev.taskName ≠ n₀) := by
  intro fuel
  induction fuel with
  | zero =>
    intro ts c ex tr n₀ t₀ inv hmem hterm hnex hbound
    have hkey : n₀ ∈ ts.map Prod.fst := List.mem_map.mpr ⟨(n₀, t₀), hmem, rfl⟩
    have h1 : ex.length < ts.length := by
      have := nodup_subset_exclude_length inv.nodupExec inv.execKeys hkey hnex
      simpa using this
    omega
  | succ fuel ih =>
    intro ts c ex tr n₀ t₀ inv hmem hterm hnex hbound
    have hkey : n₀ ∈ ts.map Prod.fst := List.mem_map.mpr ⟨(n₀, t₀), hmem, rfl⟩
    have hlt : ex.length < ts.length := by
      have := nodup_subset_exclude_length inv.nodupExec inv.execKeys hkey hnex
      simpa using this
    have hnex' : n₀ ∉ (scanTasks ts c ex).executed := by
      intro hmem1
      rcases scan_executed_mem ts c ex n₀ hmem1 with h1 | ⟨⟨u, hu, hu2⟩, _⟩
      · exact hnex h1
      · rw [keyUnique inv.nodupKeys hu hmem] at hu2
        rw [hterm] at hu2
        cases hu2
    have hmem' : (n₀, t₀) ∈ (scanTasks ts c ex).tasks := by
      obtain ⟨p, hp, hev⟩ := forall2_mem_left (scan_evolves ts c ex) (n₀, t₀) hmem
      rw [taskEvolves_of_terminal hev hterm] at hp
      exact hp
    have htrace : ∀ ev ∈ (scanTasks ts c ex).trace, ev.taskName ≠ n₀ := by
      intro ev hev heq
      obtain ⟨u, hu, hu2⟩ := scan_trace_source ts c ex ev hev
      rw [heq] at hu
      rw [keyUnique inv.nodupKeys hu hmem] at hu2
      rw [hterm] at hu2
      cases hu2
    by_cases hprog : (scanTasks ts c ex).progress = true
    · rw [execLoop_step hlt hprog]
      have inv' := scan_preserves_inv (c := c) inv
      have hkeys := scan_keys ts c ex
      have hgrow := scan_progress_growth inv.nodupKeys (inv_nonterm_not_exec inv) hprog
      have hlen : (scanTasks ts c ex).tasks.length = ts.length := by
        simpa using congrArg List.length hkeys
      obtain ⟨ts', c', tr', exF, heq, hmemF, hnexF, hk, htrF⟩ :=
        ih _ _ _ (tr ++ (scanTasks ts c ex).trace) n₀ t₀ inv' hmem' hterm hnex' (by omega)
      refine ⟨ts', c', tr', exF, heq, hmemF, hnexF, hk.trans hkeys, ?_⟩
      intro ev hev
      rcases htrF ev hev with h1 | h1
      · rcases List.mem_append.mp h1 with h2 | h2
        · exact Or.inl h2
        · exact Or.inr (htrace ev h2)
      · exact Or.inr h1
    · rw [Bool.not_eq_true] at hprog
      rw [execLoop_dead hlt hprog]
      refine ⟨(scanTasks ts c ex).tasks, (scanTasks ts c ex).ctx,
        tr ++ (scanTasks ts c ex).trace, (scanTasks ts c ex).executed, rfl,
        hmem', hnex', scan_keys ts c ex, ?_⟩
      intro ev hev
      rcases List.mem_append.mp hev with h1 | h1
      · exact Or.inl h1
      · exact Or.inr (htrace ev h1)

/-! ### Concrete scenarios (example workflows used as claim instances) -/

def validateAction : TaskAction := fun c => (Except.ok (PyVal.dict [("valid", PyVal.bool true)]), c)

def paymentAction : TaskAction := fun c => (Except.ok (PyVal.dict [("payment_id", PyVal.str "pay_123")]), c)

def fulfillAction : TaskAction := fun c => (Except.ok (PyVal.dict [("shipped", PyVal.bool true)]), c)

/-- The spec's order-processing example: validate → payment → fulfill. -/
def orderWorkflow : Workflow :=
  ((({ name := "order_processing" } : Workflow).addTask "validate" validateAction
      Option.none).addTask "payment" paymentAction
      (Option.some ["validate"])).addTask "fulfill" fulfillAction (Option.some ["payment"])

def orderEngine : WorkflowEngine := ({} : WorkflowEngine).registerWorkflow orderWorkflow

/-- A topological numbering of the order-processing example. -/
def orderRank : String → Nat := fun n =>
  if n = "validate" then 0 else if n = "payment" then 1 else 2

def constTrue : TaskAction := fun c => (Except.ok (PyVal.bool true), c)

def noneAction : TaskAction := fun c => (Except.ok PyVal.none, c)

/-- A single task whose action returns Python `None`. -/
def noneWorkflow : Workflow := ({ name := "w6" } : Workflow).addTask "t" noneAction Option.none

def noneEngine : WorkflowEngine := ({} : WorkflowEngine).registerWorkflow noneWorkflow

def preTask : Task :=
  { name := "t", action := constTrue, dependencies := [], status := TaskStatus.completed }

/-- A workflow whose only task is pre-seeded with terminal status. -/
def preWorkflow : Workflow := { name := "w", tasks := [("t", preTask)] }

def preEngine : WorkflowEngine := ({} : WorkflowEngine).registerWorkflow preWorkflow

def emptyWorkflow : Workflow := { name := "e" }

def emptyEngine : WorkflowEngine := ({} : WorkflowEngine).registerWorkflow emptyWorkflow

def boomAction : TaskAction := fun c => (Except.error "Payment gateway timeout", c)

/-- The spec's failure example: `payment` raises, `fulfill` depends on it. -/
def failWorkflow : Workflow :=
  (({ name := "wf" } : Workflow).addTask "payment" boomAction
    Option.none).addTask "fulfill" constTrue (Option.some ["payment"])

def failEngine : WorkflowEngine := ({} : WorkflowEngine).registerWorkflow failWorkflow

def failRank : String → Nat := fun n => if n = "payment" then 0 else 1

def taskA : Task := { name := "A", action := constTrue, dependencies := ["B"] }

def taskB : Task := { name := "B", action := constTrue, dependencies := ["A"] }

/-- The spec's cycle example: A depends on B, B depends on A. -/
def cycWorkflow : Workflow := { name := "wc", tasks := [("A", taskA), ("B", taskB)] }

def cycEngine : WorkflowEngine := ({} : WorkflowEngine).registerWorkflow cycWorkflow

def missTaskA : Task := { name := "a", action := constTrue, dependencies := [] }

def missTaskB : Task := { name := "b", action := constTrue, dependencies := ["missing"] }

/-- Workflow where `a` succeeds and `b` names a dependency that was never added. -/
def missWorkflow : Workflow := { name := "wm", tasks := [("a", missTaskA), ("b", missTaskB)] }

def missEngine : WorkflowEngine := ({} : WorkflowEngine).registerWorkflow missWorkflow

def boolWorkflow : Workflow := ({ name := "wb" } : Workflow).addTask "t" constTrue Option.none

/-- The `t` task of `boolWorkflow` after its successful run. -/
def doneTaskT : Task :=
  { name := "t", action := constTrue, dependencies := [],
    status := TaskStatus.completed, result := PyVal.bool true }

/-- The `a` task of `missWorkflow` after its successful run. -/
def doneTaskA : Task :=
  { name := "a", action := constTrue, dependencies := [],
    status := TaskStatus.completed, result := PyVal.bool true }

def boolEngine : WorkflowEngine := ({} : WorkflowEngine).registerWorkflow boolWorkflow

/-- The spec's sentence "result is non-null iff `Completed`; error is non-null
iff `Failed`; for `Skipped`, both are null", rendered over a returned report. -/
def ReportDiscipline (report : List (String × TaskRecord)) : Prop :=
  ∀ p ∈ report,
    (¬ p.2.result = PyVal.none ↔ p.2.status = "completed") ∧
    (¬ p.2.error = Option.none ↔ p.2.status = "failed") ∧
    (p.2.status = "skipped" → p.2.result = PyVal.none ∧ p.2.error = Option.none)

/-! ### Claims -/

/-- C2: the three-task order-processing workflow executes its actions in the
order validate, payment, fulfill and reports all three `Completed` with
exactly the example result values and null errors. -/
theorem c2_order_example :
    (orderEngine.executeWorkflow "order_processing" Option.none).reportOf =
      Option.some
        [("validate", ⟨"completed", PyVal.dict [("valid", PyVal.bool true)], Option.none⟩),
          ("payment", ⟨"completed", PyVal.dict [("payment_id", PyVal.str "pay_123")], Option.none⟩),
          ("fulfill", ⟨"completed", PyVal.dict [("shipped", PyVal.bool true)], Option.none⟩)] ∧
    (orderEngine.executeWorkflow "order_processing" Option.none).traceOf.map
      TraceEvent.taskName = ["validate", "payment", "fulfill"] :=
  ⟨rfl, rfl⟩

/-- C5: calling `execute_workflow` with an unregistered name fails immediately
with the not-found condition — no action is invoked and no report is produced —
and a registered name can never produce that condition, making the lookup the
only argument-validation failure. -/
theorem c5_unregistered_name (e : WorkflowEngine) (workflowName : String)
    (context : Option Ctx) :
    (dictGet e.workflows workflowName = Option.none →
      e.executeWorkflow workflowName context = ExecResult.notFound workflowName ∧
      (e.executeWorkflow workflowName context).traceOf = [] ∧
      (e.executeWorkflow workflowName context).reportOf = Option.none) ∧
    ∀ w, dictGet e.workflows workflowName = Option.some w →
      ∀ nm, e.executeWorkflow workflowName context ≠ ExecResult.notFound nm := by
  constructor
  · intro h
    rw [executeWorkflow_eq_none h]
    exact ⟨rfl, rfl, rfl⟩
  · intro w hw nm
    rw [executeWorkflow_eq hw]
    exact execLoop_no_notFound _ _ _ _ _ nm

theorem c5_witness :
    ({} : WorkflowEngine).executeWorkflow "nonexistent" Option.none =
      ExecResult.notFound "nonexistent" :=
  (((c5_unregistered_name ({} : WorkflowEngine) "nonexistent" Option.none).1) rfl).1

/-- C8: in every execution, whenever a task's action is invoked, every name in
the task's dependency list is already a member of the `executed` set (snapshot
recorded by the invocation event) — a task never starts before its
dependencies are resolved. -/
theorem c8_deps_resolved_first (e : WorkflowEngine) (workflowName : String)
    (context : Option Ctx) :
    ∀ ev ∈ (e.executeWorkflow workflowName context).traceOf,
      ∀ d ∈ ev.dependencies, d ∈ ev.executed := by
  rcases h : dictGet e.workflows workflowName with _ | w
  · rw [executeWorkflow_eq_none h]
    intro ev hev
    exact absurd hev (List.not_mem_nil ev)
  · rw [executeWorkflow_eq h]
    exact execLoop_trace _ _ _ _ _ (fun ev hev => absurd hev (List.not_mem_nil ev))

theorem c8_witness :
    (⟨"payment", ["validate"], ["validate"]⟩ : TraceEvent) ∈
      (orderEngine.executeWorkflow "order_processing" Option.none).traceOf ∧
    "validate" ∈ (⟨"payment", ["validate"], ["validate"]⟩ : TraceEvent).executed :=
  ⟨by decide,
    c8_deps_resolved_first orderEngine "order_processing" Option.none
      ⟨"payment", ["validate"], ["validate"]⟩ (by decide) "validate" (by decide)⟩

/-- C9: executing a registered workflow with zero tasks returns the empty
report immediately: no action runs (empty trace) and no deadlock is raised. -/
theorem c9_empty_workflow (e : WorkflowEngine) (workflowName : String) (w : Workflow)
    (context : Option Ctx) (hw : dictGet e.workflows workflowName = Option.some w)
    (hempty : w.tasks = []) :
    e.executeWorkflow workflowName context =
      ExecResult.ok [] [] (contextOrEmpty context) [] := by
  rw [executeWorkflow_eq hw, hempty]
  rfl

theorem c9_witness :
    emptyEngine.executeWorkflow "e" Option.none = ExecResult.ok [] [] [] [] :=
  c9_empty_workflow emptyEngine "e" emptyWorkflow Option.none rfl rfl

/-- C6 counterexample: a task whose action returns Python `None` ends
`Completed` with a null result, so "result is non-null iff status is
`Completed`" fails on the report `execute_workflow` returns. -/
theorem c6_counterexample :
    (noneEngine.executeWorkflow "w6" Option.none).reportOf =
      Option.some [("t", ⟨"completed", PyVal.none, Option.none⟩)] ∧
    ¬ ReportDiscipline [("t", ⟨"completed", PyVal.none, Option.none⟩)] := by
  refine ⟨rfl, ?_⟩
  intro h
  have h1 := (h ("t", ⟨"completed", PyVal.none, Option.none⟩) (List.mem_cons_self _ _)).1
  exact h1.mpr rfl rfl

/-- C7 counterexample: a workflow whose only task is pre-seeded `Completed`
does not return a report; `execute_workflow` raises the deadlock error
listing that task as remaining. -/
theorem c7_counterexample :
    (preEngine.executeWorkflow "w" Option.none).reportOf = Option.none ∧
    (preEngine.executeWorkflow "w" Option.none).remainingOf = Option.some ["t"] :=
  ⟨rfl, rfl⟩

/-- C7 (amended): a pre-seeded terminal task is skipped — its action is never
invoked and its `Task` object survives unchanged — but the engine does not
tolerate it: execution of any workflow containing one always ends in the
"cannot execute workflow" deadlock raise, listing that task as remaining,
instead of returning a report. -/
theorem c7_preseeded_terminal (e : WorkflowEngine) (workflowName : String) (w : Workflow)
    (context : Option Ctx) (preName : String) (preSeeded : Task)
    (hw : dictGet e.workflows workflowName = Option.some w)
    (hnodup : (w.tasks.map Prod.fst).Nodup)
    (hpre : (preName, preSeeded) ∈ w.tasks)
    (hterm : preSeeded.status.isTerminal = true) :
    ∃ remaining tasksF ctxF trace,
      e.executeWorkflow workflowName context =
        ExecResult.deadlock remaining tasksF ctxF trace ∧
      preName ∈ remaining ∧ (preName, preSeeded) ∈ tasksF ∧
      ∀ ev ∈ trace, ev.taskName ≠ preName := by
  rw [executeWorkflow_eq hw]
  obtain ⟨ts', c', tr', exF, heq, hmemF, hnexF, hk, htr⟩ :=
    execLoop_preseed (w.tasks.length + 1) w.tasks (contextOrEmpty context) [] []
      preName preSeeded (loopInv_init hnodup) hpre hterm (List.not_mem_nil preName)
      (by omega)
  refine ⟨remainingTasks ts' exF, ts', c', tr', heq, ?_, hmemF, ?_⟩
  · apply List.mem_filter.mpr
    refine ⟨?_, ?_⟩
    · rw [hk]
      exact List.mem_map.mpr ⟨(preName, preSeeded), hpre, rfl⟩
    · simpa using hnexF
  · intro ev hev
    rcases htr ev hev with h1 | h1
    · exact absurd h1 (List.not_mem_nil ev)
    · exact h1

theorem c7_witness : ∃ remaining tasksF ctxF trace,
    preEngine.executeWorkflow "w" Option.none =
      ExecResult.deadlock remaining tasksF ctxF trace ∧
    "t" ∈ remaining ∧ ("t", preTask) ∈ tasksF ∧ ∀ ev ∈ trace, ev.taskName ≠ "t" :=
  c7_preseeded_terminal preEngine "w" preWorkflow Option.none "t" preTask rfl
    (by decide) (List.mem_cons_self _ _) rfl

/-- C1: for any registered workflow whose dependency graph is acyclic
(witnessed by a topological numbering `rank`), whose dependencies all name
tasks of the workflow, and whose tasks all start `Pending`,
`execute_workflow` terminates with a normal return: a report with exactly one
entry per task (same keys, in the workflow's insertion order), each entry
carrying a terminal status. -/
theorem c1_acyclic_total (e : WorkflowEngine) (workflowName : String) (w : Workflow)
    (context : Option Ctx) (rank : String → Nat)
    (hw : dictGet e.workflows workflowName = Option.some w)
    (hnodup : (w.tasks.map Prod.fst).Nodup)
    (hpending : AllPending w.tasks)
    (hfd : FullyDefined w.tasks)
    (hrank : RankOrder w.tasks rank) :
    ∃ report tasksF ctxF trace,
      e.executeWorkflow workflowName context = ExecResult.ok report tasksF ctxF trace ∧
      report.map Prod.fst = w.tasks.map Prod.fst ∧
      ∀ p ∈ report, p.2.status = "completed" ∨ p.2.status = "failed" ∨
        p.2.status = "skipped" := by
  rw [executeWorkflow_eq hw]
  have hiff : TermIffExec w.tasks [] := by
    intro p hp
    refine iff_of_false ?_ (List.not_mem_nil _)
    rw [hpending p hp]
    exact Bool.false_ne_true
  obtain ⟨ts', c', tr', heq, hev, hk, hterm⟩ :=
    execLoop_rank_ok (w.tasks.length + 1) w.tasks (contextOrEmpty context) [] [] rank
      (loopInv_init hnodup) hiff hfd hrank (by omega)
  refine ⟨collectResults ts', ts', c', tr', heq, ?_, ?_⟩
  · rw [collectResults_keys, hk]
  · intro p hp
    obtain ⟨q, hq, hq2⟩ := List.mem_map.mp hp
    have hv := value_terminal (hterm q hq)
    rw [← hq2]
    exact hv

theorem c1_witness : ∃ report tasksF ctxF trace,
    orderEngine.executeWorkflow "order_processing" Option.none =
      ExecResult.ok report tasksF ctxF trace ∧
    report.map Prod.fst = orderWorkflow.tasks.map Prod.fst ∧
    ∀ p ∈ report, p.2.status = "completed" ∨ p.2.status = "failed" ∨
      p.2.status = "skipped" :=
  c1_acyclic_total orderEngine "order_processing" orderWorkflow Option.none orderRank
    rfl (by decide) (by decide) (by decide) (by decide)

/-- C3: task failures are swallowed, not propagated: under the totality
hypotheses of C1 (fresh tasks, acyclic fully-defined graph) the call returns
normally with every task terminal (`completed` or `failed`; dependents of
failed tasks still run) — even if every action raises — and every task whose
action always raises a given message is reported `Failed` with exactly that
stringified message as its error and a null result. -/
theorem c3_failures_recorded (e : WorkflowEngine) (workflowName : String) (w : Workflow)
    (context : Option Ctx) (rank : String → Nat)
    (hw : dictGet e.workflows workflowName = Option.some w)
    (hnodup : (w.tasks.map Prod.fst).Nodup)
    (hfresh : AllFresh w.tasks)
    (hfd : FullyDefined w.tasks)
    (hrank : RankOrder w.tasks rank) :
    ∃ report tasksF ctxF trace,
      e.executeWorkflow workflowName context = ExecResult.ok report tasksF ctxF trace ∧
      (∀ p ∈ report, p.2.status = "completed" ∨ p.2.status = "failed") ∧
      ∀ taskName t msg, (taskName, t) ∈ w.tasks →
        (∀ cc, (t.action cc).1 = Except.error msg) →
        (taskName, ⟨"failed", PyVal.none, Option.some msg⟩) ∈ report := by
  rw [executeWorkflow_eq hw]
  have hiff : TermIffExec w.tasks [] := by
    intro p hp
    refine iff_of_false ?_ (List.not_mem_nil _)
    rw [(hfresh p hp).1]
    exact Bool.false_ne_true
  obtain ⟨ts', c', tr', heq, hev, hk, hterm⟩ :=
    execLoop_rank_ok (w.tasks.length + 1) w.tasks (contextOrEmpty context) [] [] rank
      (loopInv_init hnodup) hiff hfd hrank (by omega)
  refine ⟨collectResults ts', ts', c', tr', heq, ?_, ?_⟩
  · intro p hp
    obtain ⟨q, hq, hq2⟩ := List.mem_map.mp hp
    obtain ⟨q0, hq0, hevq⟩ := forall2_mem_right hev q hq
    rcases hevq.2.2.2 with heqq | ⟨hnt, hrun | hrun⟩
    · exfalso
      have hq3 := hterm q hq
      rw [heqq, (hfresh q0 hq0).1] at hq3
      exact absurd hq3 (by decide)
    · obtain ⟨cc, v, cc1, hact, hq2'⟩ := hrun
      left
      rw [← hq2]
      show q.2.status.value = "completed"
      rw [hq2']
      rfl
    · obtain ⟨cc, m, cc1, hact, hq2'⟩ := hrun
      right
      rw [← hq2]
      show q.2.status.value = "failed"
      rw [hq2']
      rfl
  · intro taskName t msg hmem hboom
    obtain ⟨p, hp, hevp⟩ := forall2_mem_left hev (taskName, t) hmem
    rcases hevp.2.2.2 with heqq | ⟨hnt, hrun | hrun⟩
    · exfalso
      have hq3 := hterm p hp
      rw [heqq, (hfresh (taskName, t) hmem).1] at hq3
      exact absurd hq3 (by decide)
    · exfalso
      obtain ⟨cc, v, cc1, hact, _⟩ := hrun
      have hb := hboom cc
      rw [hact] at hb
      exact Except.noConfusion hb
    · obtain ⟨cc, m, cc1, hact, hp2⟩ := hrun
      have hm : m = msg := by
        have hb := hboom cc
        rw [hact] at hb
        injection hb
      subst hm
      have hres : t.result = PyVal.none := (hfresh (taskName, t) hmem).2.1
      apply List.mem_map.mpr
      refine ⟨p, hp, ?_⟩
      refine Prod.ext hevp.1 ?_
      show (⟨p.2.status.value, p.2.result, p.2.error⟩ : TaskRecord) = _
      rw [hp2]
      show (⟨"failed", t.result, Option.some m⟩ : TaskRecord) = _
      rw [hres]

theorem c3_witness : ∃ report tasksF ctxF trace,
    failEngine.executeWorkflow "wf" Option.none =
      ExecResult.ok report tasksF ctxF trace ∧
    (∀ p ∈ report, p.2.status = "completed" ∨ p.2.status = "failed") ∧
    ∀ taskName t msg, (taskName, t) ∈ failWorkflow.tasks →
      (∀ cc, (t.action cc).1 = Except.error msg) →
      (taskName, ⟨"failed", PyVal.none, Option.some msg⟩) ∈ report :=
  c3_failures_recorded failEngine "wf" failWorkflow Option.none failRank rfl
    (by decide)
    (by
      intro p hp
      rcases List.mem_cons.mp hp with rfl | hp1
      · exact ⟨rfl, rfl, rfl⟩
      · rcases List.mem_cons.mp hp1 with rfl | hp2
        · exact ⟨rfl, rfl, rfl⟩
        · exact absurd hp2 (List.not_mem_nil p))
    (by decide) (by decide)

/-- C6 (amended): for a workflow whose tasks start fresh (as `add_task`
creates them) and whose actions never return a null value on success, any
report returned by `execute_workflow` satisfies the result/error discipline:
result non-null iff `completed`, error non-null iff `failed`, and a `skipped`
entry (which would have both null) cannot occur.  Without the non-null-action
proviso the claim is false: see the counterexample. -/
theorem c6_discipline_for_nonnull_actions (e : WorkflowEngine) (workflowName : String)
    (w : Workflow) (context : Option Ctx)
    (hw : dictGet e.workflows workflowName = Option.some w)
    (hnodup : (w.tasks.map Prod.fst).Nodup)
    (hfresh : AllFresh w.tasks)
    (hnn : ∀ p ∈ w.tasks, ∀ cc v cc1, p.2.action cc = (Except.ok v, cc1) →
      ¬ v = PyVal.none) :
    ∀ report tasksF ctxF trace,
      e.executeWorkflow workflowName context = ExecResult.ok report tasksF ctxF trace →
      ReportDiscipline report := by
  rw [executeWorkflow_eq hw]
  intro report tasksF ctxF trace heq
  rcases execLoop_spec (w.tasks.length + 1) w.tasks (contextOrEmpty context) [] []
      (loopInv_init hnodup) (by omega) with
    ⟨ts', c', tr', heq2, hev, hk, hterm⟩ | ⟨ts', c', tr', exF, heq2, _⟩
  · rw [heq2] at heq
    injection heq with h1 h2 h3 h4
    subst h1
    intro p hp
    obtain ⟨q, hq, hq2⟩ := List.mem_map.mp hp
    obtain ⟨q0, hq0, hevq⟩ := forall2_mem_right hev q hq
    obtain ⟨hfq, hfr, hfe⟩ := hfresh q0 hq0
    rcases hevq.2.2.2 with heqq | ⟨hnt, hrun | hrun⟩
    · exfalso
      have hq3 := hterm q hq
      rw [heqq, hfq] at hq3
      exact absurd hq3 (by decide)
    · obtain ⟨cc, v, cc1, hact, hq2'⟩ := hrun
      have hv : ¬ v = PyVal.none := hnn q0 hq0 cc v cc1 hact
      have hstat : q.2.status = TaskStatus.completed := by rw [hq2']
      have hresv : q.2.result = v := by rw [hq2']
      have herrq : q.2.error = Option.none := by
        rw [hq2']
        exact hfe
      rw [← hq2]
      refine ⟨?_, ?_, ?_⟩
      · show ¬ q.2.result = PyVal.none ↔ q.2.status.value = "completed"
        rw [hresv, hstat]
        exact iff_of_true hv rfl
      · show ¬ q.2.error = Option.none ↔ q.2.status.value = "failed"
        rw [herrq, hstat]
        exact iff_of_false (fun h => h rfl) (by decide)
      · show q.2.status.value = "skipped" →
          q.2.result = PyVal.none ∧ q.2.error = Option.none
        rw [hstat]
        intro h
        exact absurd h (by decide)
    · obtain ⟨cc, m, cc1, hact, hq2'⟩ := hrun
      have hstat : q.2.status = TaskStatus.failed := by rw [hq2']
      have hresq : q.2.result = PyVal.none := by
        rw [hq2']
        exact hfr
      have herrq : q.2.error = Option.some m := by rw [hq2']
      rw [← hq2]
      refine ⟨?_, ?_, ?_⟩
      · show ¬ q.2.result = PyVal.none ↔ q.2.status.value = "completed"
        rw [hresq, hstat]
        exact iff_of_false (fun h => h rfl) (by decide)
      · show ¬ q.2.error = Option.none ↔ q.2.status.value = "failed"
        rw [herrq, hstat]
        exact iff_of_true (fun h => Option.noConfusion h) rfl
      · show q.2.status.value = "skipped" →
          q.2.result = PyVal.none ∧ q.2.error = Option.none
        rw [hstat]
        intro h
        exact absurd h (by decide)
  · rw [heq2] at heq
    cases heq

theorem c6_witness :
    ReportDiscipline [("t", ⟨"completed", PyVal.bool true, Option.none⟩)] :=
  c6_discipline_for_nonnull_actions boolEngine "wb" boolWorkflow Option.none rfl
    (by decide)
    (by
      intro p hp
      rcases List.mem_cons.mp hp with rfl | hp1
      · exact ⟨rfl, rfl, rfl⟩
      · exact absurd hp1 (List.not_mem_nil p))
    (by
      intro p hp cc v cc1 hact hvnone
      rcases List.mem_cons.mp hp with rfl | hp1
      · have h1 : (Except.ok (PyVal.bool true) : Except String PyVal) = Except.ok v :=
          congrArg Prod.fst hact
        injection h1 with h2
        rw [← h2] at hvnone
        exact PyVal.noConfusion hvnone
      · exact absurd hp1 (List.not_mem_nil p))
    [("t", ⟨"completed", PyVal.bool true, Option.none⟩)]
    [("t", doneTaskT)]
    [] [⟨"t", [], []⟩] rfl

/-- C10: a deadlocked call is not atomic: on the deadlock raise the workflow's
task objects keep their mutated state — same keys, and every task not listed
as remaining retains `Completed` status with null error, or `Failed` status
with null result and a stored error message. -/
theorem c10_partial_mutation_kept (e : WorkflowEngine) (workflowName : String)
    (w : Workflow) (context : Option Ctx)
    (hw : dictGet e.workflows workflowName = Option.some w)
    (hnodup : (w.tasks.map Prod.fst).Nodup)
    (hfresh : AllFresh w.tasks) :
    ∀ remaining tasksF ctxF trace,
      e.executeWorkflow workflowName context =
        ExecResult.deadlock remaining tasksF ctxF trace →
      tasksF.map Prod.fst = w.tasks.map Prod.fst ∧
      ∀ p ∈ tasksF, ¬ p.1 ∈ remaining →
        (p.2.status = TaskStatus.completed ∧ p.2.error = Option.none) ∨
        (p.2.status = TaskStatus.failed ∧ p.2.result = PyVal.none ∧
          ∃ m, p.2.error = Option.some m) := by
  rw [executeWorkflow_eq hw]
  intro remaining tasksF ctxF trace heq
  rcases execLoop_spec (w.tasks.length + 1) w.tasks (contextOrEmpty context) [] []
      (loopInv_init hnodup) (by omega) with
    ⟨ts', c', tr', heq2, _⟩ | ⟨ts', c', tr', exF, heq2, hev, hk, invF, _, _, _⟩
  · rw [heq2] at heq
    cases heq
  · rw [heq2] at heq
    injection heq with h1 h2 h3 h4
    subst h2
    refine ⟨hk, ?_⟩
    intro p hp hnrem
    have hp' : (p.1, p.2) ∈ ts' := by
      rw [Prod.mk.eta]
      exact hp
    have hkey : p.1 ∈ ts'.map Prod.fst := List.mem_map.mpr ⟨p, hp, rfl⟩
    have hpex : p.1 ∈ exF := by
      by_contra hno
      apply hnrem
      rw [← h1]
      exact List.mem_filter.mpr ⟨hkey, by simpa using hno⟩
    obtain ⟨t', ht', hterm⟩ := invF.execTerminal p.1 hpex
    rw [keyUnique invF.nodupKeys ht' hp'] at hterm
    obtain ⟨q0, hq0, hevq⟩ := forall2_mem_right hev p hp
    obtain ⟨hfq, hfr, hfe⟩ := hfresh q0 hq0
    rcases hevq.2.2.2 with heqq | ⟨hnt, hrun | hrun⟩
    · exfalso
      rw [heqq, hfq] at hterm
      exact absurd hterm (by decide)
    · obtain ⟨cc, v, cc1, hact, hp2⟩ := hrun
      left
      constructor
      · rw [hp2]
      · rw [hp2]
        exact hfe
    · obtain ⟨cc, m, cc1, hact, hp2⟩ := hrun
      right
      refine ⟨by rw [hp2], ?_, ⟨m, by rw [hp2]⟩⟩
      rw [hp2]
      exact hfr

theorem c10_witness :
    [("a", doneTaskA), ("b", missTaskB)].map Prod.fst =
      missWorkflow.tasks.map Prod.fst ∧
    ∀ p ∈ [("a", doneTaskA), ("b", missTaskB)], ¬ p.1 ∈ ["b"] →
        (p.2.status = TaskStatus.completed ∧ p.2.error = Option.none) ∨
        (p.2.status = TaskStatus.failed ∧ p.2.result = PyVal.none ∧
          ∃ m, p.2.error = Option.some m) :=
  c10_partial_mutation_kept missEngine "wm" missWorkflow Option.none rfl (by decide)
    (by
      intro p hp
      rcases List.mem_cons.mp hp with rfl | hp1
      · exact ⟨rfl, rfl, rfl⟩
      · rcases List.mem_cons.mp hp1 with rfl | hp2
        · exact ⟨rfl, rfl, rfl⟩
        · exact absurd hp2 (List.not_mem_nil p))
    ["b"]
    [("a", doneTaskA), ("b", missTaskB)]
    [] [⟨"a", [], []⟩] rfl

/-- C4: a workflow containing a blocked set of task names — each member has a
dependency that is another member (a dependency cycle) or names no task of
the workflow (a missing dependency; transitive dependents of such a task
qualify as well) — makes `execute_workflow` fail fatally with the
"cannot execute workflow" deadlock raise, whose remaining-task list (exactly
the names never resolved) contains every member of the set. -/
theorem c4_cycle_or_missing_fatal (e : WorkflowEngine) (workflowName : String)
    (w : Workflow) (context : Option Ctx) (C : List String) (c₀ : String)
    (hw : dictGet e.workflows workflowName = Option.some w)
    (hnodup : (w.tasks.map Prod.fst).Nodup)
    (hc₀ : c₀ ∈ C)
    (hCk : ∀ n ∈ C, n ∈ w.tasks.map Prod.fst)
    (hCdep : ∀ n ∈ C, ∀ t, (n, t) ∈ w.tasks →
      ∃ d ∈ t.dependencies, d ∈ C ∨ ¬ d ∈ w.tasks.map Prod.fst) :
    ∃ remaining tasksF ctxF trace,
      e.executeWorkflow workflowName context =
        ExecResult.deadlock remaining tasksF ctxF trace ∧
      ∀ n ∈ C, n ∈ remaining := by
  rw [executeWorkflow_eq hw]
  obtain ⟨ts', c', tr', exF, heq, hev, hk, hCexF⟩ :=
    execLoop_blocked (w.tasks.length + 1) w.tasks (contextOrEmpty context) [] [] C c₀
      (loopInv_init hnodup) hc₀ hCk (fun n _ => List.not_mem_nil n) hCdep (by omega)
  refine ⟨remainingTasks ts' exF, ts', c', tr', heq, ?_⟩
  intro n hn
  apply List.mem_filter.mpr
  refine ⟨?_, ?_⟩
  · rw [hk]
    exact hCk n hn
  · simpa using hCexF n hn

theorem c4_witness : ∃ remaining tasksF ctxF trace,
    cycEngine.executeWorkflow "wc" Option.none =
      ExecResult.deadlock remaining tasksF ctxF trace ∧
    ∀ n ∈ ["A", "B"], n ∈ remaining :=
  c4_cycle_or_missing_fatal cycEngine "wc" cycWorkflow Option.none ["A", "B"] "A" rfl
    (by decide) (by decide) (by decide)
    (by
      intro n hn t ht
      rcases List.mem_cons.mp ht with h1 | h1
      · injection h1 with h2 h3
        subst h3
        exact ⟨"B", by decide, Or.inl (by decide)⟩
      · rcases List.mem_cons.mp h1 with h2 | h2
        · injection h2 with h3 h4
          subst h4
          exact ⟨"A", by decide, Or.inl (by decide)⟩
        · exact absurd h2 (List.not_mem_nil (n, t)))

end WorkflowSpec
